import Mathlib

/-!
Shallow embedding of the structured-document compiler and section-aware
mutation engine of the notion-mcp repository
(src/src/openapi-mcp-server/client/http-client.ts), together with proofs
about the spec claims.

Strings are modelled as lists of characters (`Chars`); each JavaScript string
operation used by the source is given an explicit executable counterpart.
JavaScript regular expressions used by the source are simple enough that each
one is embedded as a deterministic left-to-right scanner (the character
classes involved exclude exactly the delimiter characters, so the regex
engine's backtracking can never produce a different match, as argued in the
comments of each matcher).
-/

namespace NotionMCP

abbrev Chars := List Char

/-- Whitespace test used wherever the source uses trim or a regex
whitespace class (the inputs of interest are ASCII). -/
def isWsChar (c : Char) : Bool := c = ' ' || c = '\t' || c = '\n' || c = '\r'

/-- JavaScript String.prototype.trim on the character-list model. -/
def trimL (l : Chars) : Chars :=
  ((l.dropWhile isWsChar).reverse.dropWhile isWsChar).reverse

/-- JavaScript String.prototype.toLowerCase (ASCII range). -/
def toLowerL (l : Chars) : Chars := l.map Char.toLower

/-- JavaScript a.startsWith(b) on the character-list model. -/
def startsWithL (l pre : Chars) : Bool := List.isPrefixOf pre l

/-- JavaScript a.endsWith(b) on the character-list model. -/
def endsWithL (l suf : Chars) : Bool := List.isPrefixOf suf.reverse l.reverse

/-- JavaScript hay.includes(needle) on the character-list model. -/
def containsSub (hay needle : Chars) : Bool :=
  if List.isPrefixOf needle hay then true
  else
    match hay with
    | [] => false
    | _ :: t => containsSub t needle

/-- JavaScript s.split(sep) for a single-character separator. -/
def splitOnCharL (sep : Char) : Chars → List Chars
  | [] => [[]]
  | c :: rest =>
    let r := splitOnCharL sep rest
    if c = sep then [] :: r
    else
      match r with
      | h :: t => (c :: h) :: t
      | [] => [[c]]

/-- JavaScript s.substring(a, b) for a ≤ b (the source only calls it that way). -/
def sliceL (s : Chars) (a b : Nat) : Chars := (s.drop a).take (b - a)

/-- JavaScript Math.max(...xs) for a list of lengths (the source guards the
call by nonemptiness, and all elements are nonnegative). -/
def maxNatList (l : List Nat) : Nat := l.foldl Nat.max 0

/-! ### Rich text compiler (source function textToRichText, lines 440-565)

The source runs nine global regexes over the input, collects candidate
spans, sorts them by start offset (stable sort), keeps a span only when it
starts at or after the end of the previously kept span, and renders kept
spans and the gaps between them. -/

/-- The annotation flags carried by a plain-text segment
(source interface RichTextAnnotations; underline is never set by the
compiler and is omitted). -/
structure Anns where
  bold : Bool := false
  italic : Bool := false
  strikethrough : Bool := false
  code : Bool := false
deriving DecidableEq, Repr

/-- The three entity kinds a compiled mention segment can reference. -/
inductive MKind
  | page
  | database
  | user
deriving DecidableEq, Repr

/-- The per-candidate data the source stores in its Span record
(content, annotations, link, mentionType, mentionId, blockAnchor). -/
structure SpanData where
  content : Chars
  anns : Anns := {}
  link : Option Chars := none
  mtype : Option MKind := none
  mid : Option Chars := none
  anchor : Option Chars := none
deriving DecidableEq, Repr

/-- A successful match attempt at one position: the full matched text and
the extracted span data. -/
structure MatchRes where
  full : Chars
  data : SpanData
deriving DecidableEq, Repr

/-- A candidate span with absolute offsets, as in the source's spans array. -/
structure RawSpan where
  start : Nat
  stop : Nat
  data : SpanData
deriving DecidableEq, Repr

/-- Regex  \*\*([^*]+)\*\*  attempted at the current position.  The inner
class excludes the delimiter character, so the greedy run cannot backtrack
to a different match: the match, when it exists, is the maximal run of
non-asterisk characters between the double delimiters. -/
def matchBold (_prev : Option Char) (l : Chars) : Option MatchRes :=
  match l with
  | '*' :: '*' :: rest =>
    match rest.takeWhile (· != '*'), rest.dropWhile (· != '*') with
    | i :: itail, '*' :: '*' :: _ =>
      some { full := '*' :: '*' :: ((i :: itail) ++ ['*', '*']),
             data := { content := i :: itail, anns := { bold := true } } }
    | _, _ => none
  | _ => none

/-- Regex  (?<!\*)\*([^*]+)\*(?!\*)  attempted at the current position; the
lookbehind reads the character before the attempt position and the
lookahead the character after the closing delimiter. -/
def matchItalic (prev : Option Char) (l : Chars) : Option MatchRes :=
  match l with
  | '*' :: rest =>
    if prev = some '*' then none
    else
      match rest.takeWhile (· != '*'), rest.dropWhile (· != '*') with
      | i :: itail, '*' :: rest3 =>
        if rest3.head? = some '*' then none
        else
          some { full := '*' :: ((i :: itail) ++ ['*']),
                 data := { content := i :: itail, anns := { italic := true } } }
      | _, _ => none
  | _ => none

/-- Regex  ~~([^~]+)~~ . -/
def matchStrike (_prev : Option Char) (l : Chars) : Option MatchRes :=
  match l with
  | '~' :: '~' :: rest =>
    match rest.takeWhile (· != '~'), rest.dropWhile (· != '~') with
    | i :: itail, '~' :: '~' :: _ =>
      some { full := '~' :: '~' :: ((i :: itail) ++ ['~', '~']),
             data := { content := i :: itail, anns := { strikethrough := true } } }
    | _, _ => none
  | _ => none

/-- Regex  `([^`]+)` . -/
def matchCodeSpan (_prev : Option Char) (l : Chars) : Option MatchRes :=
  match l with
  | '`' :: rest =>
    match rest.takeWhile (· != '`'), rest.dropWhile (· != '`') with
    | i :: itail, '`' :: _ =>
      some { full := '`' :: ((i :: itail) ++ ['`']),
             data := { content := i :: itail, anns := { code := true } } }
    | _, _ => none
  | _ => none

/-- Shared tail of the link-shaped regexes:  ([^\]]+)\]\(([^)]+)\)  applied
after the opening delimiter; returns the bracketed text and the
parenthesised target. -/
def matchLinkCore (rest : Chars) : Option (Chars × Chars) :=
  match rest.takeWhile (· != ']'), rest.dropWhile (· != ']') with
  | t :: ts, ']' :: '(' :: r3 =>
    match r3.takeWhile (· != ')'), r3.dropWhile (· != ')') with
    | u :: us, ')' :: _ => some (t :: ts, u :: us)
    | _, _ => none
  | _, _ => none

/-- Regex  \[([^\]]+)\]\(([^)]+)\) . -/
def matchLink (_prev : Option Char) (l : Chars) : Option MatchRes :=
  match l with
  | '[' :: rest =>
    match matchLinkCore rest with
    | some (txt, url) =>
      some { full := '[' :: txt ++ ']' :: '(' :: url ++ [')'],
             data := { content := txt, link := some url } }
    | none => none
  | _ => none

/-- Regex  @page\[([^\]]+)\]\(([^)]+)\) . -/
def matchPage (_prev : Option Char) (l : Chars) : Option MatchRes :=
  match l with
  | '@' :: 'p' :: 'a' :: 'g' :: 'e' :: '[' :: rest =>
    match matchLinkCore rest with
    | some (txt, idc) =>
      some { full := '@' :: 'p' :: 'a' :: 'g' :: 'e' :: '[' :: txt ++ ']' :: '(' :: idc ++ [')'],
             data := { content := txt, mtype := some .page, mid := some idc } }
    | none => none
  | _ => none

/-- Regex  @db\[([^\]]+)\]\(([^)]+)\) . -/
def matchDb (_prev : Option Char) (l : Chars) : Option MatchRes :=
  match l with
  | '@' :: 'd' :: 'b' :: '[' :: rest =>
    match matchLinkCore rest with
    | some (txt, idc) =>
      some { full := '@' :: 'd' :: 'b' :: '[' :: txt ++ ']' :: '(' :: idc ++ [')'],
             data := { content := txt, mtype := some .database, mid := some idc } }
    | none => none
  | _ => none

/-- Regex  @user\[([^\]]+)\]\(([^)]+)\) . -/
def matchUser (_prev : Option Char) (l : Chars) : Option MatchRes :=
  match l with
  | '@' :: 'u' :: 's' :: 'e' :: 'r' :: '[' :: rest =>
    match matchLinkCore rest with
    | some (txt, idc) =>
      some { full := '@' :: 'u' :: 's' :: 'e' :: 'r' :: '[' :: txt ++ ']' :: '(' :: idc ++ [')'],
             data := { content := txt, mtype := some .user, mid := some idc } }
    | none => none
  | _ => none

/-- Regex  @page\[([^\]]+)\]\(([^)#]+)#([^)]+)\) . -/
def matchPageAnchor (_prev : Option Char) (l : Chars) : Option MatchRes :=
  match l with
  | '@' :: 'p' :: 'a' :: 'g' :: 'e' :: '[' :: rest =>
    match rest.takeWhile (· != ']'), rest.dropWhile (· != ']') with
    | t :: ts, ']' :: '(' :: r3 =>
      match r3.takeWhile (fun c => c != ')' && c != '#'),
            r3.dropWhile (fun c => c != ')' && c != '#') with
      | d :: ds, '#' :: r5 =>
        match r5.takeWhile (· != ')'), r5.dropWhile (· != ')') with
        | a :: as_, ')' :: _ =>
          some { full := '@' :: 'p' :: 'a' :: 'g' :: 'e' :: '[' :: (t :: ts) ++ ']' :: '(' ::
                         (d :: ds) ++ '#' :: (a :: as_) ++ [')'],
                 data := { content := t :: ts, mtype := some .page, mid := some (d :: ds),
                           anchor := some (a :: as_) } }
        | _, _ => none
      | _, _ => none
    | _, _ => none
  | _ => none

/-- One global-regex exec loop (while pattern.exec(content) !== null): try a
match at each position from left to right; after a match, continue scanning
right after it.  Every matcher consumes at least one character on success,
so fuel equal to the string length makes the fuel bound unreachable; `prev`
is the character before the current position (read by the lookbehind). -/
def scanFuel (m : Option Char → Chars → Option MatchRes) :
    Nat → Option Char → Chars → Nat → List RawSpan
  | 0, _, _, _ => []
  | _ + 1, _, [], _ => []
  | fuel + 1, prev, c :: rest, pos =>
    match m prev (c :: rest) with
    | some r =>
      { start := pos, stop := pos + r.full.length, data := r.data } ::
        scanFuel m fuel r.full.getLast? (List.drop (r.full.length - 1) rest)
          (pos + r.full.length)
    | none => scanFuel m fuel (some c) rest (pos + 1)

/-- All matches of one pattern over the whole input. -/
def scanP (m : Option Char → Chars → Option MatchRes) (s : Chars) : List RawSpan :=
  scanFuel m s.length none s 0

/-- All candidate spans, in the source's pattern registration order. -/
def allSpans (s : Chars) : List RawSpan :=
  scanP matchPageAnchor s ++ scanP matchPage s ++ scanP matchDb s ++
  scanP matchUser s ++ scanP matchLink s ++ scanP matchBold s ++
  scanP matchItalic s ++ scanP matchStrike s ++ scanP matchCodeSpan s

/-- Stable insertion of a span into a start-sorted list: the inserted span
goes before the first strictly later span (spans.sort is stable, and the
inserted span precedes equal-start spans of the tail in registration
order). -/
def insertByStart (x : RawSpan) : List RawSpan → List RawSpan
  | [] => [x]
  | y :: ys => if y.start < x.start then y :: insertByStart x ys else x :: y :: ys

/-- Stable sort by span start (source: spans.sort((a, b) => a.start - b.start)). -/
def sortByStart : List RawSpan → List RawSpan
  | [] => []
  | x :: xs => insertByStart x (sortByStart xs)

/-- The greedy overlap filter: keep a span only when it starts at or after
the end of the last kept span. -/
def filterSpans : List RawSpan → Nat → List RawSpan
  | [], _ => []
  | sp :: rest, lastEnd =>
    if lastEnd ≤ sp.start then sp :: filterSpans rest sp.stop
    else filterSpans rest lastEnd

/-- A compiled output segment: either a plain-text object (possibly
annotated and carrying a link) or a mention object that carries only the
target id — the source mention literal has no text field. -/
inductive Segment
  | text (content : Chars) (anns : Anns) (link : Option Chars)
  | mention (kind : MKind) (target : Chars)
deriving DecidableEq, Repr

/-- The synthesized deep-link URL for a mention with a block anchor
(dashes removed from both ids, as in the source). -/
def notionUrlFor (idc anc : Chars) : Chars :=
  ("https://www.notion.so/").data ++ idc.filter (· != '-') ++ '#' :: anc.filter (· != '-')

/-- Render one kept span's data into a segment, following the source branch
on (span.mentionType && span.mentionId); the ids produced by the matchers
are nonempty, so the JavaScript truthiness test is just presence. -/
def segOfData (d : SpanData) : Segment :=
  match d.mtype, d.mid with
  | some mk, some idc =>
    match d.anchor with
    | some anc => .text d.content {} (some (notionUrlFor idc anc))
    | none => .mention mk idc
  | _, _ => .text d.content d.anns d.link

/-- Render one kept span into a segment. -/
def segOfSpan (sp : RawSpan) : Segment := segOfData sp.data

/-- Render the kept spans and the literal gaps between them
(the loop over filteredSpans plus the trailing-remainder push). -/
def buildSegments (s : Chars) : List RawSpan → Nat → List Segment
  | [], pos =>
    let rem := s.drop pos
    if rem.isEmpty then [] else [.text rem {} none]
  | sp :: rest, pos =>
    let gap := sliceL s pos sp.start
    (if gap.isEmpty then [] else [Segment.text gap {} none]) ++
      segOfSpan sp :: buildSegments s rest sp.stop

/-- The rich text compiler (source textToRichText). -/
def textToRichTextL (content : Chars) : List Segment :=
  let filtered := filterSpans (sortByStart (allSpans content)) 0
  let segs := buildSegments content filtered 0
  if segs.isEmpty then [.text content {} none] else segs

/-- The text a segment contributes to concatenation: a text segment
contributes its content; a mention segment carries no text at all. -/
def segText : Segment → Chars
  | .text c _ _ => c
  | .mention _ _ => []

/-- Concatenated text of a segment sequence. -/
def segsText (l : List Segment) : Chars := (l.map segText).flatten

/-! ### Block compiler (source function parseStructuredContent, lines 849-983)

The source splits the document on newlines and dispatches each trimmed
nonblank line; a line that starts and ends with a pipe opens a table that
consumes all immediately following pipe lines. -/

/-- Source parseTableRow: split a pipe-delimited row into trimmed cells,
dropping the empty fields created by the leading and trailing pipes. -/
def parseTableRowL (line : Chars) : List Chars :=
  let t := trimL line
  if startsWithL t ['|'] && endsWithL t ['|'] then
    ((splitOnCharL '|' t).drop 1).dropLast.map trimL
  else []

/-- A character allowed inside a table-separator field. -/
def isSepCellChar (c : Char) : Bool := isWsChar c || c = '-' || c = ':'

/-- Source isTableSeparator: the line must start with a pipe, a nonempty
run of separator characters and another pipe, and every pipe-split field
must consist only of separator characters. -/
def isTableSeparatorL (line : Chars) : Bool :=
  let t := trimL line
  (match t with
   | '|' :: rest =>
     !(rest.takeWhile isSepCellChar).isEmpty &&
       ((rest.dropWhile isSepCellChar).head? == some '|')
   | _ => false) &&
  (splitOnCharL '|' t).all (fun part => part.all isSepCellChar)

/-- The inner while loop of the table branch: consume consecutive pipe
lines, skipping separator rows (which set the header flag when they appear
as the first table line or right after the first data row) and collecting
the cell lists of data rows; returns the rows, the header flag and the
unconsumed lines. -/
def collectTable : List Chars → List (List Chars) → Bool → Bool →
    List (List Chars) × Bool × List Chars
  | [], acc, hch, _ => (acc, hch, [])
  | l :: rest, acc, hch, isFirst =>
    let cur := trimL l
    if !(startsWithL cur ['|']) then (acc, hch, l :: rest)
    else if isTableSeparatorL cur then
      collectTable rest acc (if isFirst || acc.length == 1 then true else hch) isFirst
    else
      let cells := parseTableRowL cur
      if cells.length > 0 then collectTable rest (acc ++ [cells]) hch false
      else collectTable rest acc hch isFirst

/-- A callout icon: an external image reference when the icon text starts
with http, otherwise a literal emoji glyph. -/
inductive IconSpec
  | emoji (glyph : Chars)
  | external (url : Chars)
deriving DecidableEq, Repr

/-- A compiled block descriptor, mirroring the object literals the source
constructs.  Note there is no code-block variant: the per-line dispatch of
the source never constructs one. -/
inductive BlockOut
  | paragraph (rich : List Segment)
  | heading1 (rich : List Segment)
  | heading2 (rich : List Segment)
  | heading3 (rich : List Segment)
  | bulleted (rich : List Segment)
  | numbered (rich : List Segment)
  | toDo (rich : List Segment) (checked : Bool)
  | quote (rich : List Segment)
  | callout (rich : List Segment) (icon : IconSpec) (color : Chars)
  | divider
  | table (width : Nat) (hasColumnHeader : Bool) (rows : List (List (List Segment)))
deriving DecidableEq, Repr

/-- Regex  ^callout\[([^,\]]+)(?:,([^\]]+))?\]:\s*(.*)$  attempted on the
trimmed line; returns the raw icon field, the optional raw color field and
the already-trimmed text.  The icon class excludes both the comma and the
closing bracket and the color class excludes the closing bracket, so the
regex engine's backtracking cannot produce a different match. -/
def parseCalloutHead (t : Chars) : Option (Chars × Option Chars × Chars) :=
  match t with
  | 'c' :: 'a' :: 'l' :: 'l' :: 'o' :: 'u' :: 't' :: '[' :: rest =>
    let icon := rest.takeWhile (fun c => c != ',' && c != ']')
    let r2 := rest.dropWhile (fun c => c != ',' && c != ']')
    match icon, r2 with
    | [], _ => none
    | _, ',' :: r3 =>
      let col := r3.takeWhile (· != ']')
      let r4 := r3.dropWhile (· != ']')
      match col, r4 with
      | [], _ => none
      | _, ']' :: ':' :: r5 => some (icon, some col, trimL (r5.dropWhile isWsChar))
      | _, _ => none
    | _, ']' :: ':' :: r5 => some (icon, none, trimL (r5.dropWhile isWsChar))
    | _, _ => none
  | _ => none

/-- Source icon construction: external reference when the icon starts with
http, emoji otherwise. -/
def mkIcon (icon : Chars) : IconSpec :=
  if startsWithL icon ("http").data then .external icon else .emoji icon

/-- The callout branch of the dispatch (default icon is the light-bulb
glyph, default color gray_background; a bracket color is suffixed with
_background). -/
def calloutBlockOf (t : Chars) : BlockOut :=
  match parseCalloutHead t with
  | some (icon0, colOpt, txt) =>
    let icon := trimL icon0
    let color :=
      match colOpt with
      | some col => trimL col ++ ("_background").data
      | none => ("gray_background").data
    .callout (textToRichTextL txt) (mkIcon icon) color
  | none =>
    let txt :=
      if startsWithL t ("!> ").data then t.drop 3
      else if startsWithL t ("callout: ").data then t.drop 9
      else if startsWithL t ("callout:").data then t.drop 8
      else []
    .callout (textToRichTextL txt) (mkIcon ("💡").data) (("gray_background").data)

/-- Regex  ^\d+\.\s  test-and-strip: a nonempty digit run, a dot and one
whitespace character are removed; returns none when the line is not a
numbered item. -/
def numberedTail (t : Chars) : Option Chars :=
  let ds := t.takeWhile Char.isDigit
  let r := t.dropWhile Char.isDigit
  match ds, r with
  | [], _ => none
  | _, '.' :: c :: rest => if isWsChar c then some rest else none
  | _, _ => none

/-- The per-line dispatch of the source for a trimmed nonblank line that is
not part of a table, in the source's order of checks.  A fenced-code line
falls through every check and becomes a paragraph: the production dispatch
has no code branch. -/
def dispatchLine (t : Chars) : BlockOut :=
  if t = ('-' :: '-' :: '-' :: []) then .divider
  else if startsWithL t ("h1:").data then .heading1 (textToRichTextL (trimL (t.drop 3)))
  else if startsWithL t ("h2:").data then .heading2 (textToRichTextL (trimL (t.drop 3)))
  else if startsWithL t ("h3:").data then .heading3 (textToRichTextL (trimL (t.drop 3)))
  else if startsWithL t ("- ").data then .bulleted (textToRichTextL (t.drop 2))
  else
    match numberedTail t with
    | some r => .numbered (textToRichTextL r)
    | none =>
      if startsWithL t ("[x] ").data || startsWithL t ("[X] ").data then
        .toDo (textToRichTextL (t.drop 4)) true
      else if startsWithL t ("[] ").data then .toDo (textToRichTextL (t.drop 3)) false
      else if startsWithL t ("> ").data then .quote (textToRichTextL (t.drop 2))
      else if startsWithL t ("!> ").data || startsWithL t ("callout:").data ||
              startsWithL t ("callout[").data then
        calloutBlockOf t
      else .paragraph (textToRichTextL t)

/-- Table construction: the width is the maximum cell count over the data
rows; each row keeps its own cells, compiled through the rich text
compiler — the source does not pad short rows. -/
def mkTableBlock (rows : List (List Chars)) (hch : Bool) : BlockOut :=
  .table (maxNatList (rows.map List.length)) hch
    (rows.map (fun r => r.map (fun cell => textToRichTextL cell)))

/-- The main line loop.  Every iteration consumes at least one line, so
fuel equal to the number of lines makes the fuel bound unreachable. -/
def parseLines : Nat → List Chars → List BlockOut
  | 0, _ => []
  | _ + 1, [] => []
  | fuel + 1, l :: rest =>
    let t := trimL l
    if t.isEmpty then parseLines fuel rest
    else if (toLowerL t = ("table:").data || toLowerL t = ("table").data) &&
            (match rest with
             | r :: _ => startsWithL (trimL r) ['|']
             | [] => false) then
      parseLines fuel rest
    else if startsWithL t ['|'] && endsWithL t ['|'] then
      let res := collectTable (l :: rest) [] false true
      (if res.1.isEmpty then [] else [mkTableBlock res.1 res.2.1]) ++ parseLines fuel res.2.2
    else dispatchLine t :: parseLines fuel rest

/-- The block compiler (source parseStructuredContent). -/
def parseStructuredContentL (content : Chars) : List BlockOut :=
  let lines := splitOnCharL '\n' content
  parseLines lines.length lines

/-! ### Page model and section locator (source lines 680-831)

Blocks returned by the remote store are modelled by their type tag, their
own rich text and their child list — exactly the fields the embedded
operations read.  A rich text item is either a text object or a date
mention; for store items the API fills plain_text, modelled for a date
mention as its start string. -/

/-- JavaScript a.startsWith(b) on whole strings. -/
def startsWithS (a b : String) : Bool := List.isPrefixOf b.data a.data

/-- One rich text item of a stored block. -/
inductive RItem
  | text (content : String) (bold : Bool)
  | dateRef (start : String)
deriving DecidableEq, Repr

/-- The plain text of one item (source: rt.plain_text || rt.text?.content || ''). -/
def itemPlain : RItem → String
  | .text c _ => c
  | .dateRef s => s

/-- Whether the item carries the bold annotation (a date mention produced
by this tool carries none). -/
def itemIsBold : RItem → Bool
  | .text _ b => b
  | .dateRef _ => false

/-- Source richTextToPlain. -/
def richTextToPlainL (l : List RItem) : String := String.join (l.map itemPlain)

/-- Source hasDateMention: some item is a date mention whose start string
begins with the date key. -/
def hasDateMentionL (rich : List RItem) (dateStr : String) : Bool :=
  rich.any (fun rt =>
    match rt with
    | .dateRef s => startsWithS s dateStr
    | _ => false)

/-- A stored block: id, type tag, own rich text and children. -/
structure PageBlock where
  id : String
  kind : String
  rich : List RItem
  children : List PageBlock
deriving Repr

/-- Word character of the JavaScript \w class (the input is already
lowercased when this is applied). -/
def isWordChar (c : Char) : Bool := c.isAlphanum || c = '_'

/-- Replace each whitespace run by a single space (regex \s+ → one space). -/
def collapseWsAux : Bool → Chars → Chars
  | _, [] => []
  | prevWs, c :: rest =>
    if isWsChar c then
      if prevWs then collapseWsAux true rest
      else ' ' :: collapseWsAux true rest
    else c :: collapseWsAux false rest

/-- Source normalizeText: lowercase, hyphens and underscores to spaces,
strip the remaining non-word non-space characters, collapse whitespace,
trim. -/
def normalizeTextL (s : String) : String :=
  String.mk (trimL (collapseWsAux false
    (((toLowerL s.data).map (fun c => if c = '-' || c = '_' then ' ' else c)).filter
      (fun c => isWordChar c || isWsChar c))))

/-- JavaScript hay.includes(needle) on whole strings. -/
def strIncludes (hay needle : String) : Bool := containsSub hay.data needle.data

/-- JavaScript s.toLowerCase() on whole strings. -/
def toLowerS (s : String) : String := String.mk (toLowerL s.data)

/-- The alias lists of SECTION_CONFIGS, keyed by the lowercased canonical
section name. -/
def sectionAliasesFor (s : String) : Option (List String) :=
  if s = "to do" then
    some ["todo", "to-do", "to do", "todos", "checklist", "tasks"]
  else if s = "activity log" then
    some ["activity log", "activitylog", "activity-log", "log", "history", "updates"]
  else none

/-- Source matchesSectionName: the normalized text contains the normalized
section name, or the normalized form of any configured alias, as a
substring. -/
def matchesSectionNameL (text sectionName : String) : Bool :=
  let nt := normalizeTextL text
  let ns := normalizeTextL sectionName
  if strIncludes nt ns then true
  else
    match sectionAliasesFor (toLowerS sectionName) with
    | some al => al.any (fun a => strIncludes nt (normalizeTextL a))
    | none => false

/-- Source getBlockText, reading only the type tag and the block's own rich
text. -/
def getBlockTextL (b : PageBlock) : Option String :=
  if b.kind = "callout" then some (richTextToPlainL b.rich)
  else if b.kind = "heading_1" || b.kind = "heading_2" || b.kind = "heading_3" then
    some (richTextToPlainL b.rich)
  else if b.kind = "toggle" then some (richTextToPlainL b.rich)
  else if b.kind = "paragraph" then
    match b.rich with
    | [] => none
    | r0 :: _ => if itemIsBold r0 then some (richTextToPlainL b.rich) else none
  else none

/-- Source isSectionHeader. -/
def isSectionHeaderL (b : PageBlock) : Bool :=
  if b.kind = "heading_1" || b.kind = "heading_2" || b.kind = "heading_3" then true
  else if b.kind = "callout" then b.rich.any itemIsBold
  else if b.kind = "paragraph" then
    match b.rich with
    | [] => false
    | r0 :: _ => itemIsBold r0
  else false

/-- The per-block test of findSectionBlock: the extracted text is truthy
(present and nonempty) and matches the section name. -/
def blockSectionMatch (name : String) (b : PageBlock) : Bool :=
  match getBlockTextL b with
  | some t => !(t == "") && matchesSectionNameL t name
  | none => false

/-- Indexed scan of findSectionBlock. -/
def findSectionBlockAux (name : String) : List PageBlock → Nat → Option (PageBlock × Nat)
  | [], _ => none
  | b :: rest, i =>
    if blockSectionMatch name b then some (b, i) else findSectionBlockAux name rest (i + 1)

/-- Source findSectionBlock: the first block whose extracted text matches. -/
def findSectionBlockL (blocks : List PageBlock) (name : String) : Option (PageBlock × Nat) :=
  findSectionBlockAux name blocks 0

/-- Source getSectionBlocks: the run after the header up to the next
section-header-eligible block. -/
def getSectionBlocksL (blocks : List PageBlock) (i : Nat) : List PageBlock :=
  (blocks.drop (i + 1)).takeWhile (fun b => !(isSectionHeaderL b))

/-- Source findLastButtonBlock: scanning from the tail while the type is
button and overwriting on each step, the loop ends holding the id of the
first button of the trailing run (despite the name), or null without one. -/
def findLastButtonBlockL (blocks : List PageBlock) : Option String :=
  ((blocks.reverse.takeWhile (fun b => b.kind == "button")).getLast?).map (fun b => b.id)

/-- The index of the first button of the trailing button run (the
firstButtonIndex loop of the section-creation branch; only evaluated when
the run is nonempty). -/
def firstTrailingButtonIdx (blocks : List PageBlock) : Nat :=
  blocks.length - (blocks.reverse.takeWhile (fun b => b.kind == "button")).length

/-- Source findActivityLogInsertAfter: the first button of the section's
trailing button run, or the section header itself.  The header index is
valid at every call site, so the out-of-range default is never reached. -/
def findActivityLogInsertAfterL (blocks : List PageBlock) (i : Nat) : String :=
  let sb := getSectionBlocksL blocks i
  match ((sb.reverse.takeWhile (fun b => b.kind == "button")).getLast?).map (fun b => b.id) with
  | some bid => bid
  | none =>
    match blocks.get? i with
    | some b => b.id
    | none => ""

/-! ### Activity log merge (source add-activity-log handler, lines 1806-1890)

The handler reads the page's top-level blocks and issues exactly one
patch-children call; the embedding returns that call as a plan and a
separate function applies a plan to a page state.  The store semantics is
modelled from the spec (section 6): appendChildren inserts immediately
after the block named by insertAfter, or at the end of the container when
insertAfter is absent.  The wall-clock date key and the formatted log line
are inputs of the embedding. -/

/-- The plan: the single patch-block-children call the handler issues. -/
inductive LogPlan
  | createSection (after : Option String) (blocks : List PageBlock)
  | appendToToggle (toggleId : String) (children : List PageBlock)
  | newToggle (after : String) (blocks : List PageBlock)
deriving Repr

/-- Flatten compiled segments into stored rich text items (a created
block's observable plain text is its content). -/
def itemsOfSegs (l : List Segment) : List RItem :=
  l.map (fun s =>
    match s with
    | .text c a _ => .text (String.mk c) a.bold
    | .mention _ t => .text (String.mk t) false)

/-- The section callout the handler creates (createSectionCallout applied
to the name Activity Log); the icon and color of the source literal are
not read by any embedded operation and are omitted from the block model. -/
def sectionCalloutBlock : PageBlock :=
  { id := "", kind := "callout", rich := [.text "Activity Log" true], children := [] }

/-- The bulleted log line the handler creates from the formatted entry. -/
def logBulletBlock (entry : String) : PageBlock :=
  { id := "", kind := "bulleted_list_item",
    rich := itemsOfSegs (textToRichTextL entry.data), children := [] }

/-- The dated toggle container the handler creates
(dateMentionRichText plus one log line). -/
def dateToggleBlock (dateStr entry : String) : PageBlock :=
  { id := "", kind := "toggle", rich := [.dateRef dateStr],
    children := [logBulletBlock entry] }

/-- The per-block test of the handler's toggle scan: a toggle whose rich
text has a date mention starting with the date key, or whose plain text
equals the date key. -/
def isTodayToggleB (dateStr : String) (b : PageBlock) : Bool :=
  b.kind == "toggle" &&
    (hasDateMentionL b.rich dateStr || richTextToPlainL b.rich == dateStr)

/-- The add-activity-log handler as a plan (source lines 1821-1890). -/
def addActivityLogPlan (blocks : List PageBlock) (dateStr entry : String) : LogPlan :=
  match findSectionBlockL blocks ("Activity Log") with
  | none =>
    let newBlocks := [sectionCalloutBlock, dateToggleBlock dateStr entry]
    match findLastButtonBlockL blocks with
    | none => .createSection none newBlocks
    | some _ =>
      let fbi := firstTrailingButtonIdx blocks
      if fbi > 0 then .createSection ((blocks.get? (fbi - 1)).map (fun b => b.id)) newBlocks
      else .createSection none newBlocks
  | some (_, idx) =>
    let sb := getSectionBlocksL blocks idx
    match (sb.find? (isTodayToggleB dateStr)).map (fun b => b.id) with
    | some tid => .appendToToggle tid [logBulletBlock entry]
    | none => .newToggle (findActivityLogInsertAfterL blocks idx) [dateToggleBlock dateStr entry]

/-- Whether a plan issues a call that creates a toggle block. -/
def plansNewToggle : LogPlan → Bool
  | .createSection _ bs => bs.any (fun b => b.kind == "toggle")
  | .appendToToggle _ kids => kids.any (fun b => b.kind == "toggle")
  | .newToggle _ bs => bs.any (fun b => b.kind == "toggle")

/-- Store semantics of patching children onto a non-page block: the new
children are appended at the end of that block's child list. -/
def updChildren (tid : String) (kids : List PageBlock) (b : PageBlock) : PageBlock :=
  if b.id = tid then { b with children := b.children ++ kids } else b

/-- Apply a toggle patch to the page's top-level blocks. -/
def appendChildrenAt (blocks : List PageBlock) (tid : String) (kids : List PageBlock) :
    List PageBlock :=
  blocks.map (updChildren tid kids)

/-- Modelled from the spec: appendChildren with insertAfter — the new
blocks go immediately after the named block (after the end of the list
when the id is absent, which no reachable call produces). -/
def insertAfterIdL : List PageBlock → String → List PageBlock → List PageBlock
  | [], _, newBs => newBs
  | b :: rest, aid, newBs =>
    if b.id = aid then b :: (newBs ++ rest) else b :: insertAfterIdL rest aid newBs

/-- Modelled from the spec: execute the single call of a plan against the
page's top-level block list (appendChildren without insertAfter appends at
the end of the container). -/
def applyPlan (blocks : List PageBlock) : LogPlan → List PageBlock
  | .createSection none newBs => blocks ++ newBs
  | .createSection (some aid) newBs => insertAfterIdL blocks aid newBs
  | .appendToToggle tid kids => appendChildrenAt blocks tid kids
  | .newToggle aid newBs => insertAfterIdL blocks aid newBs

/-! ### Replace-section (source handler, lines 1754-1804)

The handler scans the page for the section, deletes every block of the
section one by one (each delete wrapped in try/catch continue), then
issues the insertion regardless.  The success result reports
deleted_count as the number of targeted blocks.  Remote outcomes are
modelled by oracles for the delete and insert calls. -/

/-- The scan loop: on a matching block, record the previous block as the
insertion anchor and collect the block; inside the section collect blocks
and stop at the next section header. -/
def replaceScanAux (name : String) :
    List PageBlock → Bool → Option String → List String → Option String →
    Option String × List String
  | [], _, after, dels, _ => (after, dels)
  | b :: rest, inSec, after, dels, prev =>
    if blockSectionMatch name b then
      replaceScanAux name rest true prev (dels ++ [b.id]) prev
    else if inSec && isSectionHeaderL b then (after, dels)
    else if inSec then replaceScanAux name rest inSec after (dels ++ [b.id]) (some b.id)
    else replaceScanAux name rest inSec after dels (some b.id)

/-- The full scan from the head of the page. -/
def replaceScan (blocks : List PageBlock) (name : String) : Option String × List String :=
  replaceScanAux name blocks false none [] none

/-- A remote call the replace-section handler issues. -/
inductive RCall
  | del (id : String)
  | insertChildren (after : Option String) (children : List BlockOut)
deriving Repr

/-- The observable outcome of one replace-section run: the calls issued in
order, the reported deleted_count, the deletions the store accepted, the
insertion outcome and whether the section was found. -/
structure ReplaceRun where
  calls : List RCall
  reportedDeleted : Nat
  succeededDeletes : List String
  insertionOk : Bool
  sectionFound : Bool
deriving Repr

/-- The replace-section handler against delete/insert oracles.  Every
targeted block is deleted in order whatever the oracle answers (try/catch
continue), the insertion is attempted afterwards regardless, and the
success result reports the number of targeted blocks. -/
def replaceSectionRun (blocks : List PageBlock) (name content : String)
    (deleteOk : String → Bool) (insertOk : Bool) : ReplaceRun :=
  let sc := replaceScan blocks name
  if sc.2.isEmpty then
    { calls := [], reportedDeleted := 0, succeededDeletes := [],
      insertionOk := insertOk, sectionFound := false }
  else
    let children := parseStructuredContentL content.data
    { calls := sc.2.map RCall.del ++ [RCall.insertChildren sc.1 children],
      reportedDeleted := sc.2.length,
      succeededDeletes := sc.2.filter deleteOk,
      insertionOk := insertOk,
      sectionFound := true }

/-! ### Fuzzy property resolution (source lines 1027-1186)

Scores are real numbers in the source; they are modelled as rationals,
which the source arithmetic (constants and one exact division) represents
without rounding. -/

/-- Lowercase and trim, the preprocessing of stringSimilarity. -/
def simNormalize (s : String) : String := String.mk (trimL (toLowerL s.data))

/-- The set of two-character slices of a string (JavaScript builds a Set,
so duplicates collapse). -/
def bigramsOf (s : String) : Finset Chars :=
  ((s.data.zip s.data.tail).map (fun p => [p.1, p.2])).toFinset

/-- Source stringSimilarity: 1 for equal normalized strings, 9/10 when one
is a prefix of the other, 8/10 when one contains the other, otherwise the
Sorensen-Dice bigram coefficient (0 when either bigram set is empty). -/
def stringSimilarityL (str1 str2 : String) : ℚ :=
  let s1 := simNormalize str1
  let s2 := simNormalize str2
  if s1 = s2 then 1
  else if startsWithS s1 s2 || startsWithS s2 s1 then 9 / 10
  else if strIncludes s1 s2 || strIncludes s2 s1 then 8 / 10
  else
    let b1 := bigramsOf s1
    let b2 := bigramsOf s2
    if b1.card = 0 ∨ b2.card = 0 then 0
    else (2 * ((b1 ∩ b2).card : ℚ)) / ((b1.card : ℚ) + (b2.card : ℚ))

/-- The best-match loop: running best option and best score, replacing the
best only on a strictly greater score, so the loop ends holding the first
option attaining the maximum score (and none when every score is 0). -/
def findBestAux (input : String) : List String → Option String → ℚ → Option String × ℚ
  | [], best, bs => (best, bs)
  | o :: rest, best, bs =>
    if bs < stringSimilarityL input o then
      findBestAux input rest (some o) (stringSimilarityL input o)
    else findBestAux input rest best bs

/-- The loop state after all options. -/
def firstBest (input : String) (options : List String) : Option String × ℚ :=
  findBestAux input options none 0

/-- Source findBestMatch: the best option when it is truthy (a nonempty
string) and its score reaches the threshold, null otherwise. -/
def findBestMatchL (input : String) (options : List String) (threshold : ℚ) :
    Option (String × ℚ) :=
  match (firstBest input options).1 with
  | some m =>
    if ¬ m = "" ∧ threshold ≤ (firstBest input options).2 then
      some (m, (firstBest input options).2)
    else none
  | none => none

/-- JavaScript Math.round(score * 100) for the nonnegative scores in use,
rendered as a decimal string. -/
def roundPctStr (q : ℚ) : String := toString ⌊q * 100 + 1 / 2⌋

/-- The substitution warning the source emits, naming the property, the
input value, the resolved value and the percentage score. -/
def substMsg (label propName inputName m : String) (sc : ℚ) : String :=
  label ++ " \"" ++ propName ++ "\": \"" ++ inputName ++ "\" → \"" ++ m ++ "\" (" ++
    roundPctStr sc ++ "% match)"

/-- The unresolved warning the source emits. -/
def unresolvedMsg (label propName inputName : String) : String :=
  label ++ " \"" ++ propName ++ "\": \"" ++ inputName ++ "\" - no close match found"

/-- The select branch of resolvePropertiesWithFuzzyMatch for one value: an
exact option passes through silently; otherwise the best match is
substituted with a warning when found, and the original value is kept with
an unresolved warning when not.  The status and multi-select branches
repeat the same logic with a different label. -/
def resolveSelectValue (propName inputName : String) (options : List String) :
    String × List String :=
  if options.contains inputName then (inputName, [])
  else
    match findBestMatchL inputName options (1 / 2) with
    | some (m, sc) => (m, [substMsg ("Select") propName inputName m sc])
    | none => (inputName, [unresolvedMsg ("Select") propName inputName])

/-- The multi_select branch of the source for the list of requested option
names, resolved independently per element, warnings in element order. -/
def resolveMultiValues (propName : String) (options : List String) :
    List String → List String × List String
  | [] => ([], [])
  | item :: rest =>
    let head :=
      if options.contains item then ([item], ([] : List String))
      else
        match findBestMatchL item options (1 / 2) with
        | some (m, sc) => ([m], [substMsg ("Multi-select") propName item m sc])
        | none => ([item], [unresolvedMsg ("Multi-select") propName item])
    let tail := resolveMultiValues propName options rest
    (head.1 ++ tail.1, head.2 ++ tail.2)

/-- The maximum similarity of the input against a list of options (used to
state what the best-match loop computes). -/
def bestSimilarity (input : String) (options : List String) : ℚ :=
  (options.map (stringSimilarityL input)).foldl max 0

/-- Sample stored blocks used by the concrete instances below. -/
def introHeading : PageBlock := ⟨"i", "heading_1", [.text "Intro" false], []⟩

/-- A stored heading reading Activity Log. -/
def alogHeading : PageBlock := ⟨"a", "heading_1", [.text "Activity Log" false], []⟩

/-- A stored non-bold paragraph. -/
def plainPara : PageBlock := ⟨"p", "paragraph", [.text "x" false], []⟩

/-- A stored date toggle for 2025-06-01. -/
def todayToggle : PageBlock := ⟨"t", "toggle", [.dateRef "2025-06-01"], []⟩

/-- A stored heading reading Checklist. -/
def checklistHeading : PageBlock := ⟨"c", "heading_2", [.text "Checklist" false], []⟩

/-! ### Specification predicates for the content-preservation law

A piece is either a literal chunk (contributing itself) or one matched
construct: the full matched text is the construct's delimiter syntax
around its payload, and the contribution is what the compiled segment
carries — the inner text for emphasis, code, links and anchored mentions,
and nothing for page, database and user mentions, whose compiled objects
carry only the target id. -/

inductive PieceShape : Chars → Chars → Prop
  | lit (c : Chars) : PieceShape c c
  | bold (inner : Chars) (h1 : inner ≠ []) (h2 : ∀ c ∈ inner, c ≠ '*') :
      PieceShape ('*' :: '*' :: (inner ++ ['*', '*'])) inner
  | italic (inner : Chars) (h1 : inner ≠ []) (h2 : ∀ c ∈ inner, c ≠ '*') :
      PieceShape ('*' :: (inner ++ ['*'])) inner
  | strike (inner : Chars) (h1 : inner ≠ []) (h2 : ∀ c ∈ inner, c ≠ '~') :
      PieceShape ('~' :: '~' :: (inner ++ ['~', '~'])) inner
  | codeSpan (inner : Chars) (h1 : inner ≠ []) (h2 : ∀ c ∈ inner, c ≠ '`') :
      PieceShape ('`' :: (inner ++ ['`'])) inner
  | link (txt url : Chars) (h1 : txt ≠ []) (h2 : url ≠ []) :
      PieceShape ('[' :: txt ++ ']' :: '(' :: url ++ [')']) txt
  | pageAnchor (txt idc anc : Chars) (h1 : txt ≠ []) (h2 : idc ≠ []) (h3 : anc ≠ []) :
      PieceShape
        ('@' :: 'p' :: 'a' :: 'g' :: 'e' :: '[' :: txt ++ ']' :: '(' :: idc ++ '#' :: anc ++ [')'])
        txt
  | pageMention (txt idc : Chars) (h1 : txt ≠ []) (h2 : idc ≠ []) :
      PieceShape ('@' :: 'p' :: 'a' :: 'g' :: 'e' :: '[' :: txt ++ ']' :: '(' :: idc ++ [')']) []
  | dbMention (txt idc : Chars) (h1 : txt ≠ []) (h2 : idc ≠ []) :
      PieceShape ('@' :: 'd' :: 'b' :: '[' :: txt ++ ']' :: '(' :: idc ++ [')']) []
  | userMention (txt idc : Chars) (h1 : txt ≠ []) (h2 : idc ≠ []) :
      PieceShape ('@' :: 'u' :: 's' :: 'e' :: 'r' :: '[' :: txt ++ ']' :: '(' :: idc ++ [')']) []

/-- Soundness contract of one pattern matcher: a successful match consumes
a nonempty prefix of the input whose shape is one matched construct, with
the contribution of the rendered segment as payload. -/
def MatcherSound (m : Option Char → Chars → Option MatchRes) : Prop :=
  ∀ prev l r, m prev l = some r →
    r.full ≠ [] ∧ (∃ tail, l = r.full ++ tail) ∧
      PieceShape r.full (segText (segOfData r.data))

/-- Whether a compiled block descriptor is a table block. -/
def isTableBlock : BlockOut → Bool
  | .table _ _ _ => true
  | _ => false

/-- The kept spans form an ordered, non-overlapping chain from a given
position. -/
def SpanChain : Nat → List RawSpan → Prop
  | _, [] => True
  | n, sp :: rest => n ≤ sp.start ∧ SpanChain sp.stop rest

/-! ## Lemmas -/

theorem takeWhile_dropWhile_append {p : Char → Bool} {l inner rest2 : Chars}
    (h1 : l.takeWhile p = inner) (h2 : l.dropWhile p = rest2) : l = inner ++ rest2 := by
  rw [← h1, ← h2, List.takeWhile_append_dropWhile]

theorem ne_of_mem_takeWhile {c0 : Char} {l inner : Chars}
    (h : l.takeWhile (· != c0) = inner) : ∀ c ∈ inner, c ≠ c0 := by
  intro c hc
  have := List.mem_takeWhile_imp (h ▸ hc)
  simpa using this

theorem matchBold_sound : MatcherSound matchBold := by
  intro prev l r h
  unfold matchBold at h
  split at h
  next rest =>
    split at h
    next i itail tl htake hdrop =>
      cases h
      refine ⟨by simp, ⟨tl, ?_⟩, ?_⟩
      · have := takeWhile_dropWhile_append htake hdrop
        rw [this]; simp
      · have hshape := PieceShape.bold (i :: itail) (by simp) (ne_of_mem_takeWhile htake)
        simpa [segOfData, segText] using hshape
    next => exact absurd h (by simp)
  next => exact absurd h (by simp)

theorem matchItalic_sound : MatcherSound matchItalic := by
  intro prev l r h
  unfold matchItalic at h
  split at h
  next rest =>
    split at h
    · exact absurd h (by simp)
    · split at h
      next i itail rest3 htake hdrop =>
        split at h
        · exact absurd h (by simp)
        · cases h
          refine ⟨by simp, ⟨rest3, ?_⟩, ?_⟩
          · have := takeWhile_dropWhile_append htake hdrop
            rw [this]; simp
          · have hshape := PieceShape.italic (i :: itail) (by simp) (ne_of_mem_takeWhile htake)
            simpa [segOfData, segText] using hshape
      next => exact absurd h (by simp)
  next => exact absurd h (by simp)

theorem matchStrike_sound : MatcherSound matchStrike := by
  intro prev l r h
  unfold matchStrike at h
  split at h
  next rest =>
    split at h
    next i itail tl htake hdrop =>
      cases h
      refine ⟨by simp, ⟨tl, ?_⟩, ?_⟩
      · have := takeWhile_dropWhile_append htake hdrop
        rw [this]; simp
      · have hshape := PieceShape.strike (i :: itail) (by simp) (ne_of_mem_takeWhile htake)
        simpa [segOfData, segText] using hshape
    next => exact absurd h (by simp)
  next => exact absurd h (by simp)

theorem matchCodeSpan_sound : MatcherSound matchCodeSpan := by
  intro prev l r h
  unfold matchCodeSpan at h
  split at h
  next rest =>
    split at h
    next i itail tl htake hdrop =>
      cases h
      refine ⟨by simp, ⟨tl, ?_⟩, ?_⟩
      · have := takeWhile_dropWhile_append htake hdrop
        rw [this]; simp
      · have hshape := PieceShape.codeSpan (i :: itail) (by simp) (ne_of_mem_takeWhile htake)
        simpa [segOfData, segText] using hshape
    next => exact absurd h (by simp)
  next => exact absurd h (by simp)

theorem matchLinkCore_sound {rest txt url : Chars} (h : matchLinkCore rest = some (txt, url)) :
    txt ≠ [] ∧ url ≠ [] ∧ ∃ tail, rest = txt ++ ']' :: '(' :: url ++ ')' :: tail := by
  unfold matchLinkCore at h
  split at h
  next t ts r3 htake hdrop =>
    split at h
    next u us tl htake2 hdrop2 =>
      cases h
      refine ⟨by simp, by simp, ⟨tl, ?_⟩⟩
      have h1 := takeWhile_dropWhile_append htake hdrop
      have h2 := takeWhile_dropWhile_append htake2 hdrop2
      rw [h1, h2]; simp
    next => exact absurd h (by simp)
  next => exact absurd h (by simp)

theorem matchLink_sound : MatcherSound matchLink := by
  intro prev l r h
  unfold matchLink at h
  split at h
  next rest =>
    split at h
    next txt url hcore =>
      cases h
      obtain ⟨ht, hu, tl, htl⟩ := matchLinkCore_sound hcore
      refine ⟨by simp, ⟨tl, ?_⟩, ?_⟩
      · rw [htl]; simp
      · have hshape := PieceShape.link txt url ht hu
        simpa [segOfData, segText] using hshape
    next => exact absurd h (by simp)
  next => exact absurd h (by simp)

theorem matchPage_sound : MatcherSound matchPage := by
  intro prev l r h
  unfold matchPage at h
  split at h
  next rest =>
    split at h
    next txt idc hcore =>
      cases h
      obtain ⟨ht, hu, tl, htl⟩ := matchLinkCore_sound hcore
      refine ⟨by simp, ⟨tl, ?_⟩, ?_⟩
      · rw [htl]; simp
      · have hshape := PieceShape.pageMention txt idc ht hu
        simpa [segOfData, segText] using hshape
    next => exact absurd h (by simp)
  next => exact absurd h (by simp)

theorem matchDb_sound : MatcherSound matchDb := by
  intro prev l r h
  unfold matchDb at h
  split at h
  next rest =>
    split at h
    next txt idc hcore =>
      cases h
      obtain ⟨ht, hu, tl, htl⟩ := matchLinkCore_sound hcore
      refine ⟨by simp, ⟨tl, ?_⟩, ?_⟩
      · rw [htl]; simp
      · have hshape := PieceShape.dbMention txt idc ht hu
        simpa [segOfData, segText] using hshape
    next => exact absurd h (by simp)
  next => exact absurd h (by simp)

theorem matchUser_sound : MatcherSound matchUser := by
  intro prev l r h
  unfold matchUser at h
  split at h
  next rest =>
    split at h
    next txt idc hcore =>
      cases h
      obtain ⟨ht, hu, tl, htl⟩ := matchLinkCore_sound hcore
      refine ⟨by simp, ⟨tl, ?_⟩, ?_⟩
      · rw [htl]; simp
      · have hshape := PieceShape.userMention txt idc ht hu
        simpa [segOfData, segText] using hshape
    next => exact absurd h (by simp)
  next => exact absurd h (by simp)

theorem matchPageAnchor_sound : MatcherSound matchPageAnchor := by
  intro prev l r h
  unfold matchPageAnchor at h
  split at h
  next rest =>
    split at h
    next t ts r3 htake hdrop =>
      split at h
      next d ds r5 htake2 hdrop2 =>
        split at h
        next a as_ tl htake3 hdrop3 =>
          cases h
          refine ⟨by simp, ⟨tl, ?_⟩, ?_⟩
          · have h1 := takeWhile_dropWhile_append htake hdrop
            have h2 := takeWhile_dropWhile_append htake2 hdrop2
            have h3 := takeWhile_dropWhile_append htake3 hdrop3
            rw [h1, h2, h3]; simp
          · have hshape :=
              PieceShape.pageAnchor (t :: ts) (d :: ds) (a :: as_) (by simp) (by simp) (by simp)
            simpa [segOfData, segText] using hshape
        next => exact absurd h (by simp)
      next => exact absurd h (by simp)
    next => exact absurd h (by simp)
  next => exact absurd h (by simp)

theorem drop_eq_slice_append {s : Chars} {a b : Nat} (hab : a ≤ b) :
    s.drop a = sliceL s a b ++ s.drop b := by
  unfold sliceL
  conv_lhs => rw [← List.take_append_drop (b - a) (s.drop a)]
  rw [List.drop_drop, Nat.add_sub_cancel' hab]

theorem scanFuel_sound {m : Option Char → Chars → Option MatchRes} (hm : MatcherSound m)
    (s : Chars) :
    ∀ (fuel : Nat) (prev : Option Char) (l : Chars) (pos : Nat), l = s.drop pos →
      ∀ sp ∈ scanFuel m fuel prev l pos,
        pos ≤ sp.start ∧ sp.start < sp.stop ∧ sp.stop ≤ s.length ∧
          PieceShape (sliceL s sp.start sp.stop) (segText (segOfSpan sp)) := by
  intro fuel
  induction fuel with
  | zero =>
    intro prev l pos hl sp hsp
    simp [scanFuel] at hsp
  | succ n ih =>
    intro prev l pos hl sp hsp
    cases l with
    | nil => simp [scanFuel] at hsp
    | cons c rest =>
      have hrest : rest = s.drop (pos + 1) := by
        have h1 : (s.drop pos).drop 1 = rest := by rw [← hl]; simp
        rw [← h1, List.drop_drop]
      rw [scanFuel] at hsp
      cases hmm : m prev (c :: rest) with
      | some r =>
        rw [hmm] at hsp
        obtain ⟨hne, ⟨tail, htail⟩, hshape⟩ := hm prev (c :: rest) r hmm
        have hlenpos : 0 < r.full.length := List.length_pos.mpr hne
        have hlen1 : rest.length + 1 = s.length - pos := by
          have := congrArg List.length hl
          simpa [List.length_drop] using this
        have hlen2 : rest.length + 1 = r.full.length + tail.length := by
          have := congrArg List.length htail
          simpa using this
        have hposlen : pos + r.full.length ≤ s.length := by omega

        rcases List.mem_cons.mp hsp with hsp | hsp
        · subst hsp
          refine ⟨le_refl _, by simp [hlenpos], hposlen, ?_⟩
          have hslice : sliceL s pos (pos + r.full.length) = r.full := by
            unfold sliceL
            rw [← hl, htail]
            simp
          rw [hslice]
          simpa [segOfSpan] using hshape
        · have hl' : List.drop (r.full.length - 1) rest = s.drop (pos + r.full.length) := by
            rw [hrest, List.drop_drop]
            congr 1
            omega
          have hres := ih r.full.getLast? _ _ hl' sp hsp
          exact ⟨by omega, hres.2⟩
      | none =>
        rw [hmm] at hsp
        have hres := ih (some c) rest (pos + 1) hrest sp hsp
        exact ⟨by omega, hres.2⟩

/-- Every candidate span produced by the nine scanners is sound with
respect to the input. -/
theorem allSpans_sound {s : Chars} {sp : RawSpan} (hsp : sp ∈ allSpans s) :
    sp.start < sp.stop ∧ sp.stop ≤ s.length ∧
      PieceShape (sliceL s sp.start sp.stop) (segText (segOfSpan sp)) := by
  have hzero : s = s.drop 0 := by simp
  have hone : ∀ m, MatcherSound m → sp ∈ scanP m s →
      sp.start < sp.stop ∧ sp.stop ≤ s.length ∧
        PieceShape (sliceL s sp.start sp.stop) (segText (segOfSpan sp)) := by
    intro m hmm hmem
    exact (scanFuel_sound hmm s s.length none s 0 hzero sp hmem).2
  unfold allSpans at hsp
  simp only [List.mem_append] at hsp
  rcases hsp with ((((((((h | h) | h) | h) | h) | h) | h) | h) | h)
  · exact hone _ matchPageAnchor_sound h
  · exact hone _ matchPage_sound h
  · exact hone _ matchDb_sound h
  · exact hone _ matchUser_sound h
  · exact hone _ matchLink_sound h
  · exact hone _ matchBold_sound h
  · exact hone _ matchItalic_sound h
  · exact hone _ matchStrike_sound h
  · exact hone _ matchCodeSpan_sound h

theorem mem_of_mem_insertByStart {x sp : RawSpan} :
    ∀ {l : List RawSpan}, sp ∈ insertByStart x l → sp = x ∨ sp ∈ l := by
  intro l
  induction l with
  | nil => intro h; simp [insertByStart] at h; exact Or.inl h
  | cons y ys ih =>
    intro h
    unfold insertByStart at h
    split at h
    · rcases List.mem_cons.mp h with h | h
      · exact Or.inr (List.mem_cons.mpr (Or.inl h))
      · rcases ih h with h | h
        · exact Or.inl h
        · exact Or.inr (List.mem_cons.mpr (Or.inr h))
    · rcases List.mem_cons.mp h with h | h
      · exact Or.inl h
      · exact Or.inr h

theorem mem_of_mem_sortByStart {sp : RawSpan} :
    ∀ {l : List RawSpan}, sp ∈ sortByStart l → sp ∈ l := by
  intro l
  induction l with
  | nil => intro h; simp [sortByStart] at h
  | cons x xs ih =>
    intro h
    unfold sortByStart at h
    rcases mem_of_mem_insertByStart h with h | h
    · exact h ▸ List.mem_cons_self x xs
    · exact List.mem_cons.mpr (Or.inr (ih h))

theorem filterSpans_chain : ∀ (l : List RawSpan) (n : Nat), SpanChain n (filterSpans l n) := by
  intro l
  induction l with
  | nil => intro n; simp [filterSpans, SpanChain]
  | cons sp rest ih =>
    intro n
    unfold filterSpans
    split
    next hle => exact ⟨hle, ih sp.stop⟩
    next => exact ih n

theorem mem_of_mem_filterSpans {sp : RawSpan} :
    ∀ {l : List RawSpan} {n : Nat}, sp ∈ filterSpans l n → sp ∈ l := by
  intro l
  induction l with
  | nil => intro n h; simp [filterSpans] at h
  | cons x xs ih =>
    intro n h
    unfold filterSpans at h
    split at h
    · rcases List.mem_cons.mp h with h | h
      · exact h ▸ List.mem_cons_self x xs
      · exact List.mem_cons.mpr (Or.inr (ih h))
    · exact List.mem_cons.mpr (Or.inr (ih h))

theorem segsText_append (a b : List Segment) : segsText (a ++ b) = segsText a ++ segsText b := by
  simp [segsText]

theorem segsText_cons (x : Segment) (l : List Segment) :
    segsText (x :: l) = segText x ++ segsText l := by
  simp [segsText]

/-- The rendering loop turns a sound chain of spans into an alternating
decomposition of the input suffix. -/
theorem buildSegments_decomp (s : Chars) :
    ∀ (spans : List RawSpan) (pos : Nat), pos ≤ s.length → SpanChain pos spans →
      (∀ sp ∈ spans, sp.start < sp.stop ∧ sp.stop ≤ s.length ∧
        PieceShape (sliceL s sp.start sp.stop) (segText (segOfSpan sp))) →
      ∃ pieces : List (Chars × Chars),
        s.drop pos = (pieces.map Prod.fst).flatten ∧
        segsText (buildSegments s spans pos) = (pieces.map Prod.snd).flatten ∧
        ∀ pc ∈ pieces, PieceShape pc.1 pc.2 := by
  intro spans
  induction spans with
  | nil =>
    intro pos _ _ _
    by_cases hrem : (s.drop pos).isEmpty
    · refine ⟨[], ?_, ?_, by simp⟩
      · simpa [List.isEmpty_iff] using hrem
      · simp [buildSegments, hrem, segsText]
    · refine ⟨[(s.drop pos, s.drop pos)], by simp, ?_, ?_⟩
      · simp [buildSegments, hrem, segsText, segText]
      · intro pc hpc
        simp at hpc
        rw [hpc]
        exact PieceShape.lit _
  | cons sp rest ih =>
    intro pos hpos hchain hsound
    obtain ⟨hle, hchain'⟩ := hchain
    obtain ⟨hlt, hstop, hshape⟩ := hsound sp (List.mem_cons_self sp rest)
    have hrest : ∀ x ∈ rest, x.start < x.stop ∧ x.stop ≤ s.length ∧
        PieceShape (sliceL s x.start x.stop) (segText (segOfSpan x)) := by
      intro x hx
      exact hsound x (List.mem_cons.mpr (Or.inr hx))
    obtain ⟨pieces, hfst, hsnd, hshapes⟩ := ih sp.stop hstop hchain' hrest
    have hd1 : s.drop pos = sliceL s pos sp.start ++ s.drop sp.start :=
      drop_eq_slice_append hle
    have hd2 : s.drop sp.start = sliceL s sp.start sp.stop ++ s.drop sp.stop :=
      drop_eq_slice_append (le_of_lt hlt)
    by_cases hgap : (sliceL s pos sp.start).isEmpty
    · refine ⟨(sliceL s sp.start sp.stop, segText (segOfSpan sp)) :: pieces, ?_, ?_, ?_⟩
      · rw [hd1, hd2]
        have : sliceL s pos sp.start = [] := by simpa [List.isEmpty_iff] using hgap
        simp [this, hfst]
      · rw [buildSegments]
        simp only [hgap, if_true, List.nil_append]
        simp [segsText_cons, hsnd]
      · intro pc hpc
        rcases List.mem_cons.mp hpc with hpc | hpc
        · rw [hpc]; exact hshape
        · exact hshapes pc hpc
    · refine ⟨(sliceL s pos sp.start, sliceL s pos sp.start) ::
        (sliceL s sp.start sp.stop, segText (segOfSpan sp)) :: pieces, ?_, ?_, ?_⟩
      · rw [hd1, hd2]
        simp [hfst]
      · rw [buildSegments]
        simp only [hgap, if_false, List.cons_append, List.nil_append]
        simp [segsText_cons, segText, hsnd]
      · intro pc hpc
        rcases List.mem_cons.mp hpc with hpc | hpc
        · rw [hpc]; exact PieceShape.lit _
        · rcases List.mem_cons.mp hpc with hpc | hpc
          · rw [hpc]; exact hshape
          · exact hshapes pc hpc

/-! ## Claim theorems -/

/-- C2, counterexample.  The claim says concatenating the content of
plain-text spans and the display text of mention spans reproduces the
input with only delimiter syntax removed and no characters dropped.  On
the input @page[Hello](abc) the compiler returns a single mention segment
that carries only the target id: the segment has no content or display
text field at all, so the concatenated text is empty even though the
bracketed display text Hello is nonempty — its characters are dropped. -/
theorem c2_counterexample :
    textToRichTextL ("@page[Hello](abc)").data = [Segment.mention MKind.page ("abc").data] ∧
    segsText (textToRichTextL ("@page[Hello](abc)").data) = [] ∧
    ("Hello").data ≠ [] := by
  refine ⟨by decide, by decide, by decide⟩

/-- C2, amended.  For every input string, the input decomposes into an
alternating sequence of literal chunks and matched constructs such that
the concatenated segment text of the compiled span sequence is exactly the
input with each matched construct replaced by its contribution: the inner
text for emphasis, strikethrough, code, links and anchored page mentions,
and nothing for page, database and user mentions, whose compiled segments
carry only the target id.  In particular no character outside a matched
construct is dropped or duplicated, and every removed character belongs to
the delimiter syntax (or the target field) of one matched construct. -/
theorem c2_content_preservation (s : Chars) :
    ∃ pieces : List (Chars × Chars),
      s = (pieces.map Prod.fst).flatten ∧
      segsText (textToRichTextL s) = (pieces.map Prod.snd).flatten ∧
      ∀ pc ∈ pieces, PieceShape pc.1 pc.2 := by
  have hsound : ∀ sp ∈ filterSpans (sortByStart (allSpans s)) 0,
      sp.start < sp.stop ∧ sp.stop ≤ s.length ∧
        PieceShape (sliceL s sp.start sp.stop) (segText (segOfSpan sp)) := by
    intro sp hsp
    exact allSpans_sound (mem_of_mem_sortByStart (mem_of_mem_filterSpans hsp))
  have hchain : SpanChain 0 (filterSpans (sortByStart (allSpans s)) 0) :=
    filterSpans_chain _ 0
  obtain ⟨pieces, h1, h2, h3⟩ :=
    buildSegments_decomp s (filterSpans (sortByStart (allSpans s)) 0) 0 (by simp) hchain hsound
  rw [List.drop_zero] at h1
  unfold textToRichTextL
  by_cases hsegs : (buildSegments s (filterSpans (sortByStart (allSpans s)) 0) 0).isEmpty
  · refine ⟨[(s, s)], by simp, ?_, ?_⟩
    · simp only [hsegs, if_true]
      simp [segsText, segText]
    · intro pc hpc
      simp at hpc
      rw [hpc]
      exact PieceShape.lit s
  · refine ⟨pieces, h1, ?_, h3⟩
    simp only [hsegs, if_false]
    exact h2

theorem le_foldl_max : ∀ (l : List Nat) (a b : Nat), a ≤ b → a ≤ l.foldl Nat.max b := by
  intro l
  induction l with
  | nil => intro a b h; simpa using h
  | cons c rest ih =>
    intro a b h
    exact ih a (Nat.max b c) (le_trans h (Nat.le_max_left b c))

theorem le_maxNatList_of_mem : ∀ {l : List Nat} {x : Nat}, x ∈ l → x ≤ maxNatList l := by
  have haux : ∀ (l : List Nat) (a x : Nat), x ∈ l → x ≤ l.foldl Nat.max a := by
    intro l
    induction l with
    | nil => intro a x hx; simp at hx
    | cons c rest ih =>
      intro a x hx
      rcases List.mem_cons.mp hx with hx | hx
      · subst hx
        exact le_foldl_max rest x (Nat.max a x) (Nat.le_max_right a x)
      · exact ih (Nat.max a c) x hx
  intro l x hx
  exact haux l 0 x hx

theorem isTableBlock_dispatchLine (t : Chars) : isTableBlock (dispatchLine t) = false := by
  rw [dispatchLine.eq_def]
  cases hnum : numberedTail t with
  | some r =>
    cases hc : parseCalloutHead t with
    | some trip =>
      obtain ⟨a, bopt, c⟩ := trip
      simp only [hnum, hc, calloutBlockOf, apply_ite isTableBlock]
      simp only [isTableBlock, ite_self]
    | none =>
      simp only [hnum, hc, calloutBlockOf, apply_ite isTableBlock]
      simp only [isTableBlock, ite_self]
  | none =>
    cases hc : parseCalloutHead t with
    | some trip =>
      obtain ⟨a, bopt, c⟩ := trip
      simp only [hnum, hc, calloutBlockOf, apply_ite isTableBlock]
      simp only [isTableBlock, ite_self]
    | none =>
      simp only [hnum, hc, calloutBlockOf, apply_ite isTableBlock]
      simp only [isTableBlock, ite_self]

theorem dispatchLine_ne_table (t : Chars) (w : Nat) (hch : Bool)
    (rows : List (List (List Segment))) : dispatchLine t ≠ BlockOut.table w hch rows := by
  intro h
  have := isTableBlock_dispatchLine t
  rw [h] at this
  simp [isTableBlock] at this

theorem parseLines_table_spec :
    ∀ (fuel : Nat) (lines : List Chars) (b : BlockOut), b ∈ parseLines fuel lines →
      ∀ w hch rows, b = BlockOut.table w hch rows →
        w = maxNatList (rows.map List.length) ∧ rows ≠ [] ∧
          ∀ cells ∈ rows, cells.length ≤ w := by
  intro fuel
  induction fuel with
  | zero => intro lines b hb; simp [parseLines] at hb
  | succ n ih =>
    intro lines b hb
    cases lines with
    | nil => simp [parseLines] at hb
    | cons l rest =>
      rw [parseLines.eq_def] at hb
      simp only [] at hb
      split at hb
      · exact ih rest b hb
      · split at hb
        · exact ih rest b hb
        · split at hb
          · rcases List.mem_append.mp hb with hb | hb
            · split at hb
              next => simp at hb
              next hne =>
                intro w hch rows hrows
                have hb' : b = mkTableBlock (collectTable (l :: rest) [] false true).1
                    (collectTable (l :: rest) [] false true).2.1 := by
                  simpa using hb
                set rows0 := (collectTable (l :: rest) [] false true).1 with hrows0
                have hrows0ne : rows0 ≠ [] := by
                  intro hcontra
                  exact hne (by simp [hcontra])
                rw [hb'] at hrows
                unfold mkTableBlock at hrows
                injection hrows with hw hh hr
                have hlens : rows.map List.length = rows0.map List.length := by
                  rw [← hr]
                  simp
                refine ⟨by rw [← hw, hlens], ?_, ?_⟩
                · intro hcontra
                  rw [← hr] at hcontra
                  simp [hcontra] at hrows0ne
                  exact hrows0ne (by simpa using hcontra)
                · intro cells hcells
                  have : cells.length ∈ rows.map List.length := List.mem_map_of_mem _ hcells
                  rw [hlens] at this
                  rw [← hw]
                  exact le_maxNatList_of_mem this
            · exact ih _ b hb
          · rcases List.mem_cons.mp hb with hb | hb
            · intro w hch rows hrows
              exact absurd (hb ▸ hrows) (by exact dispatchLine_ne_table _ w hch rows)
            · exact ih rest b hb

/-- C4, counterexample.  The claim says each compiled table row holds
exactly width cells, short source rows being right-padded with empty text
cells.  The two-row table below compiles to width 2, yet its second row
keeps a single cell: the compiler never pads. -/
theorem c4_counterexample :
    parseStructuredContentL ("| a | b |\n| c |").data =
      [BlockOut.table 2 false
        [[[Segment.text ['a'] {} none], [Segment.text ['b'] {} none]],
         [[Segment.text ['c'] {} none]]]] ∧
    ([[[Segment.text ['a'] {} none], [Segment.text ['b'] {} none]],
      [[Segment.text ['c'] {} none]]] : List (List (List Segment))).map List.length = [2, 1] ∧
    (2 : Nat) ≠ 1 := by
  refine ⟨by decide, by decide, by decide⟩

/-- C4, amended.  Every table block the compiler emits has width equal to
the maximum cell count over its data rows; each row keeps exactly its
source row's cells (so no row exceeds the width, but shorter rows are not
padded), and the row list is nonempty. -/
theorem c4_table_width (content : Chars) :
    ∀ b ∈ parseStructuredContentL content, ∀ w hch rows, b = BlockOut.table w hch rows →
      w = maxNatList (rows.map List.length) ∧ rows ≠ [] ∧
        ∀ cells ∈ rows, cells.length ≤ w := by
  intro b hb
  exact parseLines_table_spec _ _ b hb

/-- C4, witness: the amended theorem applied to the two-row table above. -/
theorem c4_table_width_witness :
    2 = maxNatList (([[[Segment.text ['a'] {} none], [Segment.text ['b'] {} none]],
        [[Segment.text ['c'] {} none]]] : List (List (List Segment))).map List.length) ∧
    ([[[Segment.text ['a'] {} none], [Segment.text ['b'] {} none]],
      [[Segment.text ['c'] {} none]]] : List (List (List Segment))) ≠ [] ∧
    ∀ cells ∈ ([[[Segment.text ['a'] {} none], [Segment.text ['b'] {} none]],
      [[Segment.text ['c'] {} none]]] : List (List (List Segment))), cells.length ≤ 2 :=
  c4_table_width ("| a | b |\n| c |").data
    (BlockOut.table 2 false
      [[[Segment.text ['a'] {} none], [Segment.text ['b'] {} none]],
       [[Segment.text ['c'] {} none]]])
    (by decide) 2 false _ rfl

/-- C5.  The claim (and the repository's own test copy of the function)
says a line starting with three backticks becomes a code block whose
language is the remainder of the line.  The production per-line dispatch
has no such branch: the line falls through to the paragraph fallback. -/
theorem c5_code_fence_is_paragraph :
    parseStructuredContentL ("```javascript").data =
      [BlockOut.paragraph [Segment.text ("```javascript").data {} none]] := by
  decide

/-- C3.  On a page consisting solely of button blocks (and no activity-log
section), the section-creation branch finds firstButtonIndex = 0, sets no
insert-after anchor, and the store then appends the new section header and
date toggle at the end — after the buttons, which therefore do not remain
the last blocks, contradicting the claim and the source's own comment
(insert at start if buttons are first). -/
theorem c3_all_button_page :
    (applyPlan
        [{ id := "b1", kind := "button", rich := [], children := [] },
         { id := "b2", kind := "button", rich := [], children := [] }]
        (addActivityLogPlan
          [{ id := "b1", kind := "button", rich := [], children := [] },
           { id := "b2", kind := "button", rich := [], children := [] }]
          ("2025-06-01") ("09:00 EST — did a thing"))).map (fun b => b.kind) =
      ["button", "button", "callout", "toggle"] := by
  rfl

/-- C9.  Section matching is substring containment after normalization, so
the heading Backlog matches the section name Activity Log through the
alias log; the locator returns it (index 0) even though an exact
Activity Log heading follows, and the add-activity-log merge consequently
plans a fresh date toggle anchored at the Backlog heading although a
matching date toggle already exists under the real Activity Log section. -/
theorem c9_overbroad_section_match :
    matchesSectionNameL ("Backlog") ("Activity Log") = true ∧
    ((findSectionBlockL
        [⟨"b", "heading_1", [RItem.text ("Backlog") false], []⟩,
         ⟨"a", "heading_1", [RItem.text ("Activity Log") false], []⟩,
         ⟨"t", "toggle", [RItem.dateRef ("2025-06-01")], []⟩] ("Activity Log")).map
        (fun p => (p.1.id, p.2))) = some ("b", 0) ∧
    addActivityLogPlan
        [⟨"b", "heading_1", [RItem.text ("Backlog") false], []⟩,
         ⟨"a", "heading_1", [RItem.text ("Activity Log") false], []⟩,
         ⟨"t", "toggle", [RItem.dateRef ("2025-06-01")], []⟩]
        ("2025-06-01") ("09:00 EST — did a thing") =
      LogPlan.newToggle ("b")
        [dateToggleBlock ("2025-06-01") ("09:00 EST — did a thing")] := by
  refine ⟨by decide, by rfl, by rfl⟩

/-- C8, counterexample.  The claim says the operation reports how many
deletions succeeded.  On a page whose Activity Log section holds two
blocks, with a store that accepts the first deletion and rejects the
second, the success result reports deleted_count = 2 — the number of
blocks targeted — while only one deletion succeeded. -/
theorem c8_counterexample :
    (replaceSectionRun [introHeading, alogHeading, plainPara] ("Activity Log") ("h2: New")
        (fun id => id == "a") true).reportedDeleted = 2 ∧
    (replaceSectionRun [introHeading, alogHeading, plainPara] ("Activity Log") ("h2: New")
        (fun id => id == "a") true).succeededDeletes = ["a"] ∧
    (2 : Nat) ≠ 1 := by
  refine ⟨by rfl, by rfl, by decide⟩

/-- C8, amended.  When the section is found, the sequence of remote calls
the handler issues is the same whatever the store answers: every targeted
block is deleted in order (failed deletions neither stop the loop nor are
rolled back), and the insertion is issued afterwards regardless.  The
success result reports deleted_count as the number of targeted blocks, not
the number of successful deletions; the store's answers only determine
which deletions succeeded and the separately surfaced insertion outcome. -/
theorem c8_replace_section (blocks : List PageBlock) (name content : String)
    (delOk delOk' : String → Bool) (insOk insOk' : Bool)
    (hf : (replaceScan blocks name).2 ≠ []) :
    (replaceSectionRun blocks name content delOk insOk).calls =
      (replaceSectionRun blocks name content delOk' insOk').calls ∧
    (replaceSectionRun blocks name content delOk insOk).calls =
      ((replaceScan blocks name).2.map RCall.del) ++
        [RCall.insertChildren (replaceScan blocks name).1
          (parseStructuredContentL content.data)] ∧
    (replaceSectionRun blocks name content delOk insOk).reportedDeleted =
      (replaceScan blocks name).2.length ∧
    (replaceSectionRun blocks name content delOk insOk).succeededDeletes =
      (replaceScan blocks name).2.filter delOk ∧
    (replaceSectionRun blocks name content delOk insOk).insertionOk = insOk := by
  have hie : (replaceScan blocks name).2.isEmpty = false := by
    simpa [List.isEmpty_iff] using hf
  unfold replaceSectionRun
  simp [hie]

/-- C8, witness: the amended theorem at the concrete page and oracles of
the counterexample, against a second pair of oracles that rejects
everything. -/
theorem c8_replace_section_witness :
    (replaceSectionRun [introHeading, alogHeading, plainPara] ("Activity Log") ("h2: New")
        (fun id => id == "a") true).calls =
      (replaceSectionRun [introHeading, alogHeading, plainPara] ("Activity Log") ("h2: New")
        (fun _ => false) false).calls ∧
    (replaceSectionRun [introHeading, alogHeading, plainPara] ("Activity Log") ("h2: New")
        (fun id => id == "a") true).calls =
      ((replaceScan [introHeading, alogHeading, plainPara] ("Activity Log")).2.map RCall.del) ++
        [RCall.insertChildren (replaceScan [introHeading, alogHeading, plainPara]
          ("Activity Log")).1 (parseStructuredContentL ("h2: New").data)] ∧
    (replaceSectionRun [introHeading, alogHeading, plainPara] ("Activity Log") ("h2: New")
        (fun id => id == "a") true).reportedDeleted =
      (replaceScan [introHeading, alogHeading, plainPara] ("Activity Log")).2.length ∧
    (replaceSectionRun [introHeading, alogHeading, plainPara] ("Activity Log") ("h2: New")
        (fun id => id == "a") true).succeededDeletes =
      (replaceScan [introHeading, alogHeading, plainPara] ("Activity Log")).2.filter
        (fun id => id == "a") ∧
    (replaceSectionRun [introHeading, alogHeading, plainPara] ("Activity Log") ("h2: New")
        (fun id => id == "a") true).insertionOk = true :=
  c8_replace_section [introHeading, alogHeading, plainPara] ("Activity Log") ("h2: New")
    (fun id => id == "a") (fun _ => false) true false (by decide)

/-- C10.  The similarity score used by fuzzy resolution is symmetric and
always lies in the closed interval from 0 to 1. -/
theorem c10_similarity_symm_bounds (a b : String) :
    stringSimilarityL a b = stringSimilarityL b a ∧
    0 ≤ stringSimilarityL a b ∧ stringSimilarityL a b ≤ 1 := by
  constructor
  · simp only [stringSimilarityL]
    by_cases h1 : simNormalize a = simNormalize b
    · rw [if_pos h1, if_pos (show simNormalize b = simNormalize a from h1.symm)]
    · rw [if_neg h1,
        if_neg (show ¬ simNormalize b = simNormalize a from fun hh => h1 hh.symm)]
      by_cases h2 : (startsWithS (simNormalize a) (simNormalize b) ||
          startsWithS (simNormalize b) (simNormalize a)) = true
      · rw [if_pos h2,
          if_pos (show (startsWithS (simNormalize b) (simNormalize a) ||
            startsWithS (simNormalize a) (simNormalize b)) = true by rwa [Bool.or_comm] at h2)]
      · rw [if_neg h2,
          if_neg (show ¬ (startsWithS (simNormalize b) (simNormalize a) ||
            startsWithS (simNormalize a) (simNormalize b)) = true from
            fun hh => h2 (by rwa [Bool.or_comm] at hh))]
        by_cases h3 : (strIncludes (simNormalize a) (simNormalize b) ||
            strIncludes (simNormalize b) (simNormalize a)) = true
        · rw [if_pos h3,
            if_pos (show (strIncludes (simNormalize b) (simNormalize a) ||
              strIncludes (simNormalize a) (simNormalize b)) = true by
              rwa [Bool.or_comm] at h3)]
        · rw [if_neg h3,
            if_neg (show ¬ (strIncludes (simNormalize b) (simNormalize a) ||
              strIncludes (simNormalize a) (simNormalize b)) = true from
              fun hh => h3 (by rwa [Bool.or_comm] at hh))]
          by_cases h4 : (bigramsOf (simNormalize a)).card = 0 ∨
              (bigramsOf (simNormalize b)).card = 0
          · rw [if_pos h4,
              if_pos (show (bigramsOf (simNormalize b)).card = 0 ∨
                (bigramsOf (simNormalize a)).card = 0 from h4.symm)]
          · rw [if_neg h4,
              if_neg (show ¬ ((bigramsOf (simNormalize b)).card = 0 ∨
                (bigramsOf (simNormalize a)).card = 0) from fun hh => h4 hh.symm)]
            rw [Finset.inter_comm]
            ring_nf
  · simp only [stringSimilarityL]
    split_ifs with h1 h2 h3 h4
    · norm_num
    · norm_num
    · norm_num
    · norm_num
    · push_neg at h4
      have hb1 : 0 < (bigramsOf (simNormalize a)).card := Nat.pos_of_ne_zero h4.1
      have hb2 : 0 < (bigramsOf (simNormalize b)).card := Nat.pos_of_ne_zero h4.2
      have hi1 : (bigramsOf (simNormalize a) ∩ bigramsOf (simNormalize b)).card ≤
          (bigramsOf (simNormalize a)).card := Finset.card_le_card Finset.inter_subset_left
      have hi2 : (bigramsOf (simNormalize a) ∩ bigramsOf (simNormalize b)).card ≤
          (bigramsOf (simNormalize b)).card := Finset.card_le_card Finset.inter_subset_right
      have hden : (0 : ℚ) < ((bigramsOf (simNormalize a)).card : ℚ) +
          ((bigramsOf (simNormalize b)).card : ℚ) := by
        have := Nat.add_pos_left hb1 (bigramsOf (simNormalize b)).card
        exact_mod_cast this
      constructor
      · positivity
      · rw [div_le_one hden]
        have : 2 * (bigramsOf (simNormalize a) ∩ bigramsOf (simNormalize b)).card ≤
            (bigramsOf (simNormalize a)).card + (bigramsOf (simNormalize b)).card := by
          omega
        exact_mod_cast this

theorem findBestAux_score (v : String) :
    ∀ (opts : List String) (best : Option String) (bs : ℚ),
      (findBestAux v opts best bs).2 =
        opts.foldl (fun acc o => max acc (stringSimilarityL v o)) bs := by
  intro opts
  induction opts with
  | nil => intro best bs; rfl
  | cons o rest ih =>
    intro best bs
    rw [findBestAux, List.foldl_cons]
    by_cases h : bs < stringSimilarityL v o
    · rw [if_pos h, ih, max_eq_right (le_of_lt h)]
    · rw [if_neg h, ih, max_eq_left (le_of_not_lt h)]

theorem firstBest_score_eq_bestSimilarity (v : String) (options : List String) :
    (firstBest v options).2 = bestSimilarity v options := by
  unfold firstBest bestSimilarity
  rw [findBestAux_score, List.foldl_map]

/-- C7.  For one enumerated value against the schema's option names: an
exact option passes through with no warning; otherwise the best-match loop
ends holding the maximum similarity score, and the first option attaining
it is substituted — with a warning naming the property, the input, the
resolved option and the score — exactly when that option is a nonempty
string and the score reaches 1/2; in every other case the original value
is kept with an unresolved warning. -/
theorem c7_fuzzy_select (p v : String) (options : List String) :
    (v ∈ options → resolveSelectValue p v options = (v, [])) ∧
    (v ∉ options →
      (firstBest v options).2 = bestSimilarity v options ∧
      (∀ m, (firstBest v options).1 = some m → ¬ m = "" →
        (1 : ℚ) / 2 ≤ (firstBest v options).2 →
        resolveSelectValue p v options =
          (m, [substMsg ("Select") p v m ((firstBest v options).2)])) ∧
      ((∀ m, (firstBest v options).1 = some m → m = "" ∨ (firstBest v options).2 < 1 / 2) →
        resolveSelectValue p v options = (v, [unresolvedMsg ("Select") p v]))) := by
  constructor
  · intro hv
    unfold resolveSelectValue
    rw [if_pos (by simpa using hv)]
  · intro hv
    have hnc : ¬ options.contains v = true := by simpa using hv
    refine ⟨firstBest_score_eq_bestSimilarity v options, ?_, ?_⟩
    · intro m hm hme hth
      unfold resolveSelectValue
      rw [if_neg hnc]
      unfold findBestMatchL
      rw [hm]
      dsimp only
      rw [if_pos ⟨hme, hth⟩]
    · intro hcond
      unfold resolveSelectValue
      rw [if_neg hnc]
      unfold findBestMatchL
      cases hm : (firstBest v options).1 with
      | none => rfl
      | some m =>
        rcases hcond m hm with hm0 | hlt
        · dsimp only
          rw [if_neg (fun hc => hc.1 hm0)]
        · dsimp only
          rw [if_neg (fun hc => absurd hc.2 (not_le.mpr hlt))]

theorem c7_sim_eval : stringSimilarityL ("in progres") ("In Progress") = 9 / 10 := by
  unfold stringSimilarityL
  rw [if_neg (by decide), if_pos (by decide)]

theorem c7_firstBest_eval :
    firstBest ("in progres") ["In Progress"] = (some ("In Progress"), 9 / 10) := by
  unfold firstBest findBestAux
  rw [c7_sim_eval, if_pos (by norm_num : (0 : ℚ) < 9 / 10)]
  rfl

theorem c7_first_eval :
    (firstBest ("in progres") ["In Progress"]).1 = some ("In Progress") := by
  rw [c7_firstBest_eval]

theorem c7_half_le : (1 : ℚ) / 2 ≤ (firstBest ("in progres") ["In Progress"]).2 := by
  rw [c7_firstBest_eval]
  norm_num

/-- C7, witness: resolving the misspelt value in progres against the
option set of the specification example substitutes In Progress and emits
the substitution warning. -/
theorem c7_fuzzy_select_witness :
    resolveSelectValue ("Status") ("in progres") ["In Progress"] =
      ("In Progress", [substMsg ("Select") ("Status") ("in progres") ("In Progress")
        ((firstBest ("in progres") ["In Progress"]).2)]) :=
  ((c7_fuzzy_select ("Status") ("in progres") ["In Progress"]).2 (by decide)).2.1
    ("In Progress") c7_first_eval (by decide) c7_half_le

theorem c7_sim_empty_eval : stringSimilarityL ("abc") ("") = 9 / 10 := by
  unfold stringSimilarityL
  rw [if_neg (by decide), if_pos (by decide)]

/-- C7, counterexample.  The claim says the best-scoring option is
substituted exactly when the best similarity score reaches 1/2.  Against
an option set holding the empty string, the input abc scores 9/10 (the
empty string is a prefix of every string), yet no substitution happens:
the source guards the substitution by JavaScript truthiness of the option,
and the empty string is falsy, so the unresolved warning is emitted
although the best score is above the threshold. -/
theorem c7_counterexample :
    bestSimilarity ("abc") [""] = 9 / 10 ∧ ((1 : ℚ) / 2 ≤ 9 / 10) ∧
    resolveSelectValue ("Status") ("abc") [""] =
      ("abc", [unresolvedMsg ("Select") ("Status") ("abc")]) := by
  refine ⟨?_, by norm_num, ?_⟩
  · unfold bestSimilarity
    rw [List.map_cons, List.map_nil, List.foldl_cons, List.foldl_nil, c7_sim_empty_eval,
      max_eq_right (by norm_num : (0 : ℚ) ≤ 9 / 10)]
  · have hfb : firstBest ("abc") [""] = (some (""), 9 / 10) := by
      unfold firstBest findBestAux
      rw [c7_sim_empty_eval, if_pos (by norm_num : (0 : ℚ) < 9 / 10)]
      rfl
    unfold resolveSelectValue
    rw [if_neg (by decide)]
    unfold findBestMatchL
    rw [hfb]
    dsimp only
    rw [if_neg (fun hc => hc.1 rfl)]

theorem findSectionBlockAux_found (name : String) :
    ∀ (l : List PageBlock) (i : Nat), (∃ b ∈ l, blockSectionMatch name b = true) →
      ∃ b j, j < l.length ∧ findSectionBlockAux name l i = some (b, i + j) ∧
        l.get? j = some b ∧ blockSectionMatch name b = true ∧
        ∀ k, k < j → ∀ b', l.get? k = some b' → blockSectionMatch name b' = false := by
  intro l
  induction l with
  | nil =>
    intro i h
    simp at h
  | cons a rest ih =>
    intro i hex
    by_cases ha : blockSectionMatch name a = true
    · refine ⟨a, 0, by simp, ?_, by simp, ha, fun k hk => absurd hk (by omega)⟩
      unfold findSectionBlockAux
      rw [if_pos ha]
      simp
    · have hex' : ∃ b ∈ rest, blockSectionMatch name b = true := by
        rcases hex with ⟨b, hb, hbm⟩
        rcases List.mem_cons.mp hb with rfl | hb
        · exact absurd hbm ha
        · exact ⟨b, hb, hbm⟩
      obtain ⟨b, j, hj, hfind, hget, hbm, hmin⟩ := ih (i + 1) hex'
      refine ⟨b, j + 1, by simp [hj], ?_, by simpa using hget, hbm, ?_⟩
      · unfold findSectionBlockAux
        rw [if_neg ha, hfind]
        have harith : i + 1 + j = i + (j + 1) := by omega
        rw [harith]
      · intro k hk b' hget'
        cases k with
        | zero =>
          simp at hget'
          rw [← hget']
          simpa using ha
        | succ k' =>
          apply hmin k' (by omega) b'
          simpa using hget'

/-- C6.  Matching a block against a section name lowercases the extracted
text, turns hyphens and underscores into spaces, strips other punctuation,
collapses whitespace, and succeeds when the normalized text contains the
normalized canonical name or a configured alias as a substring — so the
texts Checklist, To-Do and TODOS all match the target name to do — and
the locator returns the first matching block of the list. -/
theorem c6_section_locator (blocks : List PageBlock)
    (hex : ∃ b ∈ blocks, blockSectionMatch ("to do") b = true) :
    (matchesSectionNameL ("Checklist") ("to do") = true ∧
     matchesSectionNameL ("To-Do") ("to do") = true ∧
     matchesSectionNameL ("TODOS") ("to do") = true) ∧
    ∃ b i, findSectionBlockL blocks ("to do") = some (b, i) ∧ i < blocks.length ∧
      blocks.get? i = some b ∧ blockSectionMatch ("to do") b = true ∧
      ∀ k, k < i → ∀ b', blocks.get? k = some b' → blockSectionMatch ("to do") b' = false := by
  refine ⟨⟨by decide, by decide, by decide⟩, ?_⟩
  obtain ⟨b, j, hj, hfind, hget, hbm, hmin⟩ := findSectionBlockAux_found ("to do") blocks 0 hex
  exact ⟨b, j, by simpa using hfind, hj, hget, hbm, hmin⟩

/-- C6, witness: on a page holding a plain paragraph followed by a
Checklist heading, the locator run for the section name to do returns the
heading at index 1. -/
theorem c6_section_locator_witness :
    (matchesSectionNameL ("Checklist") ("to do") = true ∧
     matchesSectionNameL ("To-Do") ("to do") = true ∧
     matchesSectionNameL ("TODOS") ("to do") = true) ∧
    ∃ b i, findSectionBlockL [plainPara, checklistHeading] ("to do") = some (b, i) ∧
      i < ([plainPara, checklistHeading] : List PageBlock).length ∧
      ([plainPara, checklistHeading] : List PageBlock).get? i = some b ∧
      blockSectionMatch ("to do") b = true ∧
      ∀ k, k < i → ∀ b', ([plainPara, checklistHeading] : List PageBlock).get? k = some b' →
        blockSectionMatch ("to do") b' = false :=
  c6_section_locator [plainPara, checklistHeading]
    ⟨checklistHeading, List.mem_cons_of_mem _ (List.mem_cons_self _ _), by decide⟩

theorem find?_eq_of_countP_one {α : Type} (p : α → Bool) :
    ∀ (l : List α) (t : α), t ∈ l → p t = true → l.countP p = 1 → l.find? p = some t := by
  intro l
  induction l with
  | nil => intro t ht; simp at ht
  | cons a rest ih =>
    intro t ht hp hone
    by_cases ha : p a = true
    · rw [List.find?_cons_of_pos _ ha]
      rw [List.countP_cons_of_pos _ _ ha] at hone
      have hzero : rest.countP p = 0 := by omega
      rcases List.mem_cons.mp ht with rfl | ht
      · rfl
      · exact absurd hp (by simpa using (List.countP_eq_zero.mp hzero) t ht)
    · rw [List.find?_cons_of_neg _ ha]
      rw [List.countP_cons_of_neg _ _ (by simpa using ha)] at hone
      rcases List.mem_cons.mp ht with rfl | ht
      · exact absurd hp ha
      · exact ih t ht hp hone

theorem updChildren_id (tid : String) (kids : List PageBlock) (b : PageBlock) :
    (updChildren tid kids b).id = b.id := by
  unfold updChildren
  split <;> rfl

theorem updChildren_kind (tid : String) (kids : List PageBlock) (b : PageBlock) :
    (updChildren tid kids b).kind = b.kind := by
  unfold updChildren
  split <;> rfl

theorem updChildren_rich (tid : String) (kids : List PageBlock) (b : PageBlock) :
    (updChildren tid kids b).rich = b.rich := by
  unfold updChildren
  split <;> rfl

theorem getBlockTextL_updChildren (tid : String) (kids : List PageBlock) (b : PageBlock) :
    getBlockTextL (updChildren tid kids b) = getBlockTextL b := by
  simp only [getBlockTextL, updChildren_kind, updChildren_rich]

theorem isSectionHeaderL_updChildren (tid : String) (kids : List PageBlock) (b : PageBlock) :
    isSectionHeaderL (updChildren tid kids b) = isSectionHeaderL b := by
  simp only [isSectionHeaderL, updChildren_kind, updChildren_rich]

theorem blockSectionMatch_updChildren (name tid : String) (kids : List PageBlock)
    (b : PageBlock) :
    blockSectionMatch name (updChildren tid kids b) = blockSectionMatch name b := by
  simp only [blockSectionMatch, getBlockTextL_updChildren]

theorem isTodayToggleB_updChildren (d tid : String) (kids : List PageBlock) (b : PageBlock) :
    isTodayToggleB d (updChildren tid kids b) = isTodayToggleB d b := by
  simp only [isTodayToggleB, updChildren_kind, updChildren_rich]

theorem findSectionBlockAux_map (name : String) (f : PageBlock → PageBlock)
    (hf : ∀ b, blockSectionMatch name (f b) = blockSectionMatch name b) :
    ∀ (l : List PageBlock) (i : Nat),
      findSectionBlockAux name (l.map f) i =
        (findSectionBlockAux name l i).map (fun q => (f q.1, q.2)) := by
  intro l
  induction l with
  | nil => intro i; rfl
  | cons a rest ih =>
    intro i
    rw [List.map_cons]
    unfold findSectionBlockAux
    rw [hf a]
    by_cases ha : blockSectionMatch name a = true
    · rw [if_pos ha, if_pos ha]
      rfl
    · rw [if_neg ha, if_neg ha]
      exact ih (i + 1)

theorem getSectionBlocksL_map (f : PageBlock → PageBlock)
    (hf : ∀ b, isSectionHeaderL (f b) = isSectionHeaderL b) (l : List PageBlock) (i : Nat) :
    getSectionBlocksL (l.map f) i = (getSectionBlocksL l i).map f := by
  unfold getSectionBlocksL
  rw [← List.map_drop, List.takeWhile_map]
  have hp : ((fun b => !isSectionHeaderL b) ∘ f) = (fun b => !isSectionHeaderL b) := by
    funext b
    simp [hf b]
  rw [hp]

/-- C1.  On a page whose first Activity Log section (as the locator finds
it) holds exactly one date toggle matching the entry's date key, the merge
appends the log line as a child of that toggle and issues no call that
creates a toggle; running the merge twice with the same date key leaves
exactly one matching date toggle in that section, now holding both log
lines in call order.  Nodup ids state that the page is a well-formed store
response, where patching by block id touches one block. -/
theorem c1_merge_same_day (blocks : List PageBlock) (dateStr e1 e2 : String)
    (hb : PageBlock) (k : Nat) (t : PageBlock)
    (_hnd : (blocks.map (fun b => b.id)).Nodup)
    (hsec : findSectionBlockL blocks ("Activity Log") = some (hb, k))
    (hmem : t ∈ getSectionBlocksL blocks k)
    (htog : isTodayToggleB dateStr t = true)
    (hone : (getSectionBlocksL blocks k).countP (isTodayToggleB dateStr) = 1) :
    addActivityLogPlan blocks dateStr e1 = LogPlan.appendToToggle t.id [logBulletBlock e1] ∧
    plansNewToggle (addActivityLogPlan blocks dateStr e1) = false ∧
    addActivityLogPlan (applyPlan blocks (addActivityLogPlan blocks dateStr e1)) dateStr e2 =
      LogPlan.appendToToggle t.id [logBulletBlock e2] ∧
    plansNewToggle (addActivityLogPlan (applyPlan blocks (addActivityLogPlan blocks dateStr e1))
      dateStr e2) = false ∧
    (getSectionBlocksL
        (applyPlan (applyPlan blocks (addActivityLogPlan blocks dateStr e1))
          (addActivityLogPlan (applyPlan blocks (addActivityLogPlan blocks dateStr e1))
            dateStr e2)) k).countP (isTodayToggleB dateStr) = 1 ∧
    { t with children := t.children ++ [logBulletBlock e1, logBulletBlock e2] } ∈
      getSectionBlocksL
        (applyPlan (applyPlan blocks (addActivityLogPlan blocks dateStr e1))
          (addActivityLogPlan (applyPlan blocks (addActivityLogPlan blocks dateStr e1))
            dateStr e2)) k := by
  have hfind : (getSectionBlocksL blocks k).find? (isTodayToggleB dateStr) = some t :=
    find?_eq_of_countP_one _ _ t hmem htog hone
  have hp1 : addActivityLogPlan blocks dateStr e1 =
      LogPlan.appendToToggle t.id [logBulletBlock e1] := by
    unfold addActivityLogPlan
    rw [hsec]
    dsimp only
    rw [hfind]
    rfl
  have hs1 : applyPlan blocks (addActivityLogPlan blocks dateStr e1) =
      blocks.map (updChildren t.id [logBulletBlock e1]) := by
    rw [hp1]
    rfl
  have hsec1 : findSectionBlockL (blocks.map (updChildren t.id [logBulletBlock e1]))
      ("Activity Log") = some (updChildren t.id [logBulletBlock e1] hb, k) := by
    unfold findSectionBlockL
    rw [findSectionBlockAux_map _ _ (fun b => blockSectionMatch_updChildren _ _ _ b)]
    unfold findSectionBlockL at hsec
    rw [hsec]
    rfl
  have hsb1 : getSectionBlocksL (blocks.map (updChildren t.id [logBulletBlock e1])) k =
      (getSectionBlocksL blocks k).map (updChildren t.id [logBulletBlock e1]) :=
    getSectionBlocksL_map _ (fun b => isSectionHeaderL_updChildren _ _ b) blocks k
  have hpred : (isTodayToggleB dateStr) ∘ (updChildren t.id [logBulletBlock e1]) =
      isTodayToggleB dateStr := by
    funext b
    simp [isTodayToggleB_updChildren]
  have hfind1 : (getSectionBlocksL (blocks.map (updChildren t.id [logBulletBlock e1])) k).find?
      (isTodayToggleB dateStr) = some (updChildren t.id [logBulletBlock e1] t) := by
    rw [hsb1, List.find?_map, hpred, hfind]
    rfl
  have hp2 : addActivityLogPlan (applyPlan blocks (addActivityLogPlan blocks dateStr e1))
      dateStr e2 = LogPlan.appendToToggle t.id [logBulletBlock e2] := by
    rw [hs1]
    unfold addActivityLogPlan
    rw [hsec1]
    dsimp only
    rw [hfind1]
    dsimp only [Option.map_some']
    rw [updChildren_id]
  have hs2 : applyPlan (applyPlan blocks (addActivityLogPlan blocks dateStr e1))
      (addActivityLogPlan (applyPlan blocks (addActivityLogPlan blocks dateStr e1)) dateStr e2) =
      (blocks.map (updChildren t.id [logBulletBlock e1])).map
        (updChildren t.id [logBulletBlock e2]) := by
    rw [hp2, hs1]
    rfl
  have hsb2 : getSectionBlocksL ((blocks.map (updChildren t.id [logBulletBlock e1])).map
      (updChildren t.id [logBulletBlock e2])) k =
      ((getSectionBlocksL blocks k).map (updChildren t.id [logBulletBlock e1])).map
        (updChildren t.id [logBulletBlock e2]) := by
    rw [getSectionBlocksL_map _ (fun b => isSectionHeaderL_updChildren _ _ b), hsb1]
  have hpred2 : (isTodayToggleB dateStr) ∘ (updChildren t.id [logBulletBlock e2]) =
      isTodayToggleB dateStr := by
    funext b
    simp [isTodayToggleB_updChildren]
  refine ⟨hp1, ?_, hp2, ?_, ?_, ?_⟩
  · rw [hp1]
    simp [plansNewToggle, logBulletBlock]
  · rw [hp2]
    simp [plansNewToggle, logBulletBlock]
  · rw [hs2, hsb2, List.countP_map, List.countP_map]
    have : (isTodayToggleB dateStr ∘ updChildren t.id [logBulletBlock e2]) ∘
        updChildren t.id [logBulletBlock e1] = isTodayToggleB dateStr := by
      rw [hpred2, hpred]
    rw [this, hone]
  · rw [hs2, hsb2]
    have himg : updChildren t.id [logBulletBlock e2]
        (updChildren t.id [logBulletBlock e1] t) =
        { t with children := t.children ++ [logBulletBlock e1, logBulletBlock e2] } := by
      unfold updChildren
      rw [if_pos rfl]
      dsimp only
      rw [if_pos rfl]
      simp
    rw [← himg]
    exact List.mem_map_of_mem _ (List.mem_map_of_mem _ hmem)

/-- C1, witness: a page holding an Activity Log heading followed by the
matching date toggle and a plain paragraph, merged twice for the same
date key. -/
theorem c1_merge_same_day_witness :
    addActivityLogPlan [alogHeading, todayToggle, plainPara] ("2025-06-01") ("09:00 EST — one") =
      LogPlan.appendToToggle todayToggle.id [logBulletBlock ("09:00 EST — one")] ∧
    plansNewToggle (addActivityLogPlan [alogHeading, todayToggle, plainPara] ("2025-06-01")
      ("09:00 EST — one")) = false ∧
    addActivityLogPlan
        (applyPlan [alogHeading, todayToggle, plainPara]
          (addActivityLogPlan [alogHeading, todayToggle, plainPara] ("2025-06-01")
            ("09:00 EST — one"))) ("2025-06-01") ("10:00 EST — two") =
      LogPlan.appendToToggle todayToggle.id [logBulletBlock ("10:00 EST — two")] ∧
    plansNewToggle (addActivityLogPlan
        (applyPlan [alogHeading, todayToggle, plainPara]
          (addActivityLogPlan [alogHeading, todayToggle, plainPara] ("2025-06-01")
            ("09:00 EST — one"))) ("2025-06-01") ("10:00 EST — two")) = false ∧
    (getSectionBlocksL
        (applyPlan
          (applyPlan [alogHeading, todayToggle, plainPara]
            (addActivityLogPlan [alogHeading, todayToggle, plainPara] ("2025-06-01")
              ("09:00 EST — one")))
          (addActivityLogPlan
            (applyPlan [alogHeading, todayToggle, plainPara]
              (addActivityLogPlan [alogHeading, todayToggle, plainPara] ("2025-06-01")
                ("09:00 EST — one"))) ("2025-06-01") ("10:00 EST — two"))) 0).countP
      (isTodayToggleB ("2025-06-01")) = 1 ∧
    { todayToggle with children := todayToggle.children ++
        [logBulletBlock ("09:00 EST — one"), logBulletBlock ("10:00 EST — two")] } ∈
      getSectionBlocksL
        (applyPlan
          (applyPlan [alogHeading, todayToggle, plainPara]
            (addActivityLogPlan [alogHeading, todayToggle, plainPara] ("2025-06-01")
              ("09:00 EST — one")))
          (addActivityLogPlan
            (applyPlan [alogHeading, todayToggle, plainPara]
              (addActivityLogPlan [alogHeading, todayToggle, plainPara] ("2025-06-01")
                ("09:00 EST — one"))) ("2025-06-01") ("10:00 EST — two"))) 0 :=
  c1_merge_same_day [alogHeading, todayToggle, plainPara] ("2025-06-01")
    ("09:00 EST — one") ("10:00 EST — two") alogHeading 0 todayToggle
    (by decide) rfl (List.mem_cons_self _ _) (by decide) rfl

end NotionMCP
